import Mathlib

/-!
Shallow embedding of the cantus-firmus state engine (`src/index.js`) and proofs
about its specified behaviour.

The embedding models:
* state objects as `JVal` trees (JSON-like values; arrays are opaque leaves,
  which matches the engine: it never descends into arrays),
* the name formatter `formatStateName`, path discovery `getNestedRoutes`,
* JavaScript object references via a small heap (`Heap`, addresses into a
  store of field lists), used for the copy-on-write setter factory
  `nestedSetterFactory`, the redaction filter `cleanState`, and the wrapped
  `setState` update pipeline,
* the setter-override policy of `createProvider`, the storage connection
  `connectToLocalStorage`, and the `windowManager` registry.

JavaScript semantics captured: object fields are ordered association lists
(insertion order); property reads on `undefined`/`null` throw, on other
primitives yield `undefined`; `delete` removes a property and is a no-op on
primitives; spread `{...x}` shallow-copies an object's fields.
-/

namespace CF

/-- JSON-like values: the engine's tree-shaped view of state.  Arrays are kept
as opaque leaves because the engine never traverses into them. -/
inductive JVal where
  | jnum (n : Int)
  | jstr (s : String)
  | jbool (b : Bool)
  | jnull
  | jarr (xs : List JVal)
  | jobj (fs : List (String × JVal))

/-- Fields of a value: an object's field list, anything else has none
(mirrors how spread and key enumeration treat non-objects). -/
def fieldsOfJ : JVal → List (String × JVal)
  | .jobj fs => fs
  | _ => []

/-- First-match association lookup (JavaScript property read on an object). -/
def assocLookup {α : Type} (m : List (String × α)) (k : String) : Option α :=
  (m.find? (fun p => p.1 = k)).map (fun p => p.2)

/-- JavaScript property assignment on an object's field list: an existing key
keeps its position and gets the new value, a new key is appended. -/
def assocSet {α : Type} (m : List (String × α)) (k : String) (v : α) : List (String × α) :=
  if m.any (fun p => p.1 = k) then
    m.map (fun p => if p.1 = k then (k, v) else p)
  else
    m ++ [(k, v)]

/-- JavaScript `delete` on an object's field list. -/
def assocDel {α : Type} (m : List (String × α)) (k : String) : List (String × α) :=
  m.filter (fun p => p.1 ≠ k)

/-- JavaScript object spread `{...a, ...b}`: start from `a` and assign each of
`b`'s entries in order. -/
def spreadA {α : Type} (a b : List (String × α)) : List (String × α) :=
  b.foldl (fun acc kv => assocSet acc kv.1 kv.2) a

/-- The source's `formatStateName(name, prefix)`: splits the name into
characters, returns `null` when the first character equals its own uppercased
form (the exclusion test `name[0] === name[0].toUpperCase()`), otherwise
prepends the prefix to the name with its first character uppercased.
The empty string is mapped to `none` here; the JS function is only ever called
on non-empty keys (on `""` it would throw). -/
def formatStateName (name : String) (pre : String) : Option String :=
  match name.data with
  | [] => none
  | c :: rest =>
    if c.toUpper = c then none
    else some (pre ++ String.mk (c.toUpper :: rest))

-- ===================== path discovery (getNestedRoutes) =====================

mutual

/-- The recursive `traverse` of the source's `getNestedRoutes`: pushes the
current path when its length exceeds 1, and only descends into plain objects
(`typeof element === "object"`, not an array, not `null`). -/
def traverseJ : JVal → List String → List (List String)
  | .jobj fs, currentPath =>
    (if 1 < currentPath.length then [currentPath] else []) ++ traverseFieldsJ fs currentPath
  | _, currentPath =>
    if 1 < currentPath.length then [currentPath] else []

/-- Traversal over an object's fields in key enumeration order. -/
def traverseFieldsJ : List (String × JVal) → List String → List (List String)
  | [], _ => []
  | (k, v) :: rest, currentPath =>
    traverseJ v (currentPath ++ [k]) ++ traverseFieldsJ rest currentPath

end

/-- The source's `getNestedRoutes(state)`: all paths of length at least 2
discovered from the root, in depth-first key-enumeration order. -/
def getNestedRoutes (state : JVal) : List (List String) :=
  traverseJ state []

/-- A path addresses a location in a value: every step goes through a plain
object via an existing key (arrays, `null` and other leaves stop traversal). -/
def reachesJ : List String → JVal → Bool
  | [], _ => true
  | k :: rest, .jobj fs =>
    match assocLookup fs k with
    | some v => reachesJ rest v
    | none => false
  | _ :: _, _ => false

/-- Index of the first field carrying a key, in enumeration order. -/
def keyIdx : List (String × JVal) → String → Option Nat
  | [], _ => none
  | (k0, _) :: rest, k => if k0 = k then some 0 else (keyIdx rest k).map (fun i => i + 1)

/-- The depth-first visitation order on paths of a state object: a path comes
before its proper extensions, and paths diverging at some object are ordered
by the key enumeration order of that object. -/
def dfsLtB : List String → List String → JVal → Bool
  | [], [], _ => false
  | [], _ :: _, _ => true
  | _ :: _, [], _ => false
  | k1 :: r1, k2 :: r2, s =>
    match s with
    | .jobj fs =>
      if k1 = k2 then
        match assocLookup fs k1 with
        | some v => dfsLtB r1 r2 v
        | none => false
      else
        match keyIdx fs k1, keyIdx fs k2 with
        | some i, some j => decide (i < j)
        | _, _ => false
    | _ => false

mutual

/-- Keys of an object are pairwise distinct at every level (an invariant of
real JavaScript objects, which cannot carry duplicate keys). -/
def wfJ : JVal → Bool
  | .jobj fs => decide ((fs.map (fun p => p.1)).Nodup) && wfFieldsJ fs
  | _ => true

/-- Well-formedness of a field list: all field values are well-formed. -/
def wfFieldsJ : List (String × JVal) → Bool
  | [] => true
  | (_, v) :: rest => wfJ v && wfFieldsJ rest

end

-- ===================== heap model of JavaScript references =====================

/-- Heap addresses of live objects. -/
abbrev Addr := Nat

/-- Runtime values: primitives, opaque arrays, `undefined`, or a reference to
an object on the heap. -/
inductive HVal where
  | hnum (n : Int)
  | hstr (s : String)
  | hbool (b : Bool)
  | hnull
  | hundef
  | harr (xs : List JVal)
  | hobj (a : Addr)

/-- An object's storage: its ordered field list. -/
abbrev Obj := List (String × HVal)

/-- A heap: a partial map from addresses to objects plus the next fresh
address.  Addresses at or above `next` are never allocated. -/
structure Heap where
  mem : Addr → Option Obj
  next : Addr

/-- The empty heap. -/
def emptyHeap : Heap := ⟨fun _ => none, 0⟩

/-- Allocate a new object, returning the extended heap and its address. -/
def Heap.alloc (h : Heap) (o : Obj) : Heap × Addr :=
  (⟨fun a => if a = h.next then some o else h.mem a, h.next + 1⟩, h.next)

/-- Overwrite the object stored at an (allocated) address. -/
def Heap.write (h : Heap) (a : Addr) (o : Obj) : Heap :=
  ⟨fun x => if x = a then some o else h.mem x, h.next⟩

/-- Read one field of the object at an address. -/
def Heap.getField (h : Heap) (a : Addr) (k : String) : Option HVal :=
  (h.mem a).bind (fun o => assocLookup o k)

/-- Assign one field of the object at an address (JS property assignment). -/
def Heap.setField (h : Heap) (a : Addr) (k : String) (v : HVal) : Heap :=
  match h.mem a with
  | some o => h.write a (assocSet o k v)
  | none => h

/-- Delete one field of the object at an address (JS `delete`). -/
def Heap.delField (h : Heap) (a : Addr) (k : String) : Heap :=
  match h.mem a with
  | some o => h.write a (assocDel o k)
  | none => h

/-- Fields contributed by spreading a value (`{...v}`): an object's field
list, nothing for other values.  (Spreading a string would contribute indexed
characters in JS; the engine never spreads strings, so that corner is not
modelled.) -/
def spreadFields (h : Heap) : HVal → Obj
  | .hobj a => (h.mem a).getD []
  | _ => []

/-- JavaScript property read `v[k]` as an exception-capable operation:
reading on `undefined` or `null` throws, reading a missing key on an object
gives `undefined`, reading on any other primitive gives `undefined`. -/
def readProp (h : Heap) (v : HVal) (k : String) : Except Unit HVal :=
  match v with
  | .hobj a => .ok ((h.getField a k).getD .hundef)
  | .hundef => .error ()
  | .hnull => .error ()
  | _ => .ok HVal.hundef

/-- Reading a value at a path through the heap: `none` when any step reads a
missing key or goes through a non-object. -/
def getPathH (h : Heap) : List String → HVal → Option HVal
  | [], v => some v
  | k :: rest, .hobj a =>
    match h.getField a k with
    | some w => getPathH h rest w
    | none => none
  | _ :: _, _ => none

/-- Addresses visited, in order, by walking a path of object references
starting at an address: defined when every step reads an object reference. -/
def walkChain (h : Heap) : List String → Addr → Option (List Addr)
  | [], a => some [a]
  | k :: rest, a =>
    match h.getField a k with
    | some (.hobj b) => (walkChain h rest b).map (fun l => a :: l)
    | _ => none

/-- Objects below the bound `n` only reference objects below `n`. -/
def ClosedBelow (h : Heap) (n : Nat) : Prop :=
  ∀ a o, h.mem a = some o → a < n → ∀ kv, kv ∈ o → ∀ b, kv.2 = HVal.hobj b → b < n

/-- A value whose object reference (if any) lies below the bound. -/
def TargetBelow (w : HVal) (n : Nat) : Prop :=
  ∀ b, w = HVal.hobj b → b < n

/-- One heap refines another by deletions alone: every field present in the
first is present in the second with the identical value. -/
def FieldSub (h2 h1 : Heap) : Prop :=
  ∀ a k w, h2.getField a k = some w → h1.getField a k = some w

/-- A value rooted in a heap shaped like a tree (the data model's view of a
state object): references stay below the allocation bound and distinct paths
from the root reach distinct objects (no sharing, no cycles — the shape every
state built from literals or JSON parsing has). -/
def TreeShaped (h : Heap) (v : HVal) : Prop :=
  ClosedBelow h h.next ∧ TargetBelow v h.next
  ∧ ∀ q1 q2 b, getPathH h q1 v = some (.hobj b) → getPathH h q2 v = some (.hobj b) → q1 = q2

/-- Fuel-bounded readback of a heap value as a JSON tree (the model of
`JSON.stringify`): fields holding `undefined` are dropped, dangling references
or exhausted fuel (cycles) give `none`. -/
def readback (h : Heap) : Nat → HVal → Option JVal
  | _, .hnum n => some (.jnum n)
  | _, .hstr s => some (.jstr s)
  | _, .hbool b => some (.jbool b)
  | _, .hnull => some .jnull
  | _, .hundef => none
  | _, .harr xs => some (.jarr xs)
  | 0, .hobj _ => none
  | fuel + 1, .hobj a =>
    match h.mem a with
    | none => none
    | some o =>
      (o.foldr (fun kv acc =>
        match acc with
        | none => none
        | some fs =>
          match kv.2 with
          | .hundef => some fs
          | w =>
            match readback h fuel w with
            | some j => some ((kv.1, j) :: fs)
            | none => none) (some [])).map JVal.jobj

/-- Serialization of a heap value: readback with fuel that suffices for any
acyclic heap (`JSON.stringify` throws on cycles, modelled by `none`). -/
def stringifyH (h : Heap) (v : HVal) : Option JVal :=
  readback h (h.next + 1) v

-- ===================== redaction filter (cleanState) =====================

/-- A private entry: either a single top-level key or a nested path
(`Array.isArray` distinguishes the two in the source). -/
inductive PEntry where
  | key (k : String)
  | path (ks : List String)
deriving DecidableEq

/-- The inner walk of `cleanState` for one nested path entry: traverse to the
final segment by reference and delete it.  The returned flag records whether
the walk threw (a missing intermediate key), which the source catches,
reports with `console.error` and survives (`break`). -/
def cleanWalk (h : Heap) : List String → HVal → Heap × Bool
  | [], _ => (h, false)
  | [k], v =>
    match v with
    | .hobj a => (h.delField a k, false)
    | .hundef => (h, true)
    | .hnull => (h, true)
    | _ => (h, false)
  | k :: rest, v =>
    match readProp h v k with
    | .ok w => cleanWalk h rest w
    | .error _ => (h, true)

/-- One entry of the `privatePaths` loop of `cleanState`. -/
def cleanEntry (h : Heap) (c : Addr) : PEntry → Heap × Bool
  | .key k => (h.delField c k, false)
  | .path ks => cleanWalk h ks (.hobj c)

/-- The source's `cleanState(state, privatePaths)`: shallow-copies the state
(`const cleaned = {...state}`), then deletes every private entry — top-level
string entries from the copy, nested path entries by walking shared references
down to the final segment.  Returns the new heap, the cleaned object, and the
number of non-fatally reported path errors. -/
def cleanState (h : Heap) (state : HVal) (privatePaths : List PEntry) : Heap × HVal × Nat :=
  let p := h.alloc (spreadFields h state)
  let r := privatePaths.foldl
    (fun acc e =>
      let q := cleanEntry acc.1 p.2 e
      (q.1, acc.2 + (if q.2 then 1 else 0)))
    (p.1, 0)
  (r.1, .hobj p.2, r.2)

/-- The loop body of `cleanState`'s fold, named for reasoning. -/
def cleanStep (c : Addr) (acc : Heap × Nat) (e : PEntry) : Heap × Nat :=
  let q := cleanEntry acc.1 c e
  (q.1, acc.2 + (if q.2 then 1 else 0))

/-- The location a private entry addresses: a string entry names a top-level
key, a path entry is taken as given. -/
def normE : PEntry → List String
  | .key k => [k]
  | .path ks => ks

/-- Invariant of the redaction loop relating the working heap to the original
heap `h`, state value `v` and the full private-entry list: the copy's fields
are a sub-selection of the spread of `v` whose removals are sanctioned by
single-key entries, and every other object holds a sub-selection of its
original fields whose removals are sanctioned by a nested entry addressing
exactly that object. -/
def C2Inv (h : Heap) (v : HVal) (entries : List PEntry) (hh : Heap) : Prop :=
  (∀ k w, hh.getField h.next k = some w → assocLookup (spreadFields h v) k = some w)
  ∧ (∀ k w, assocLookup (spreadFields h v) k = some w → hh.getField h.next k = none →
      ∃ e ∈ entries, normE e = [k])
  ∧ (∀ a k w, a ≠ h.next → hh.getField a k = some w → h.getField a k = some w)
  ∧ (∀ a k w, a ≠ h.next → h.getField a k = some w → hh.getField a k = none →
      ∃ e ∈ entries, ∃ init, normE e = init ++ [k] ∧ init ≠ []
        ∧ getPathH h init v = some (.hobj a))

-- ===================== copy-on-write setter factory =====================

/-- The loop body of `nestedSetterFactory` after the initial shallow copy:
for every non-final segment, replace the field with a shallow copy of the
object it referenced and descend into the copy; assign the new value at the
final segment. -/
def nsWrite (h : Heap) (cur : Addr) : List String → HVal → Heap
  | [], _ => h
  | [k], newValue => h.setField cur k newValue
  | k :: rest, newValue =>
    let inner := spreadFields h ((h.getField cur k).getD .hundef)
    let p := h.alloc inner
    let h2 := p.1.setField cur k (.hobj p.2)
    nsWrite h2 p.2 rest newValue

/-- The source's `nestedSetterFactory(state, nsPath)(newValue)`: shallow-copy
the state, then walk `nsPath` copying every ancestor on the way and reassign
the final key to `newValue`; returns the copy. -/
def nestedSetterFactory (h : Heap) (state : HVal) (nsPath : List String) (newValue : HVal) :
    Heap × HVal :=
  let p := h.alloc (spreadFields h state)
  (nsWrite p.1 p.2 nsPath newValue, .hobj p.2)

-- ===================== update pipeline (wrapped setState) =====================

/-- The shared persistent medium, keyed by storage name.  Serialization is
modelled at the parsed-snapshot level: `JSON.stringify`/`JSON.parse` are
treated as a bijection between stored strings and JSON trees. -/
abbrev Store := String → Option JVal

/-- `localStorage.setItem`. -/
def setItem (st : Store) (k : String) (v : JVal) : Store :=
  fun x => if x = k then some v else st x

/-- Observable completion events of one wrapped `setState` call, in order. -/
inductive PipeEv where
  | cb (v : HVal)
  | res (v : HVal)

/-- The commit continuation of the wrapped `setState` (the callback passed to
`setStateMaster`), entered once the native batched replacement has committed
with new state `stateVal`: when bound to local storage it persists either the
redacted state (private paths configured and the window is the provider) or
the full state, then invokes the caller's callback with the new state and
resolves the promise with the same state.  `none` models a serialization
failure (cyclic state), which would throw before callback and resolve. -/
def setStateCommit (h : Heap) (stateVal : HVal) (bindToLocalStorage : Bool)
    (privateStatePaths : List PEntry) (storageName windowName providerWindow : String)
    (store : Store) : Option (Heap × Store × List PipeEv) :=
  if bindToLocalStorage then
    if privateStatePaths ≠ [] ∧ windowName = providerWindow then
      let p := cleanState h stateVal privateStatePaths
      match stringifyH p.1 p.2.1 with
      | some j => some (p.1, setItem store storageName j, [.cb stateVal, .res stateVal])
      | none => none
    else
      match stringifyH h stateVal with
      | some j => some (h, setItem store storageName j, [.cb stateVal, .res stateVal])
      | none => none
  else
    some (h, store, [.cb stateVal, .res stateVal])

-- ===================== window manager (createWindowManager) =====================

/-- Operations a provider context may perform on its window registry. -/
inductive WinOp where
  | openW (url : String) (nm : String)
  | closeW (nm : String)
deriving DecidableEq

/-- One step of the source's `windowManager`: `open(url, name)` throws when
either argument is falsy (leaving the registry unchanged) and otherwise stores
the handle under `name` (a duplicate name overwrites in place); `close(name)`
removes the entry.  Only the registry's key set is modelled; handles are
opaque. -/
def wmStep (reg : List String) : WinOp → List String
  | .openW url nm =>
    if url = "" ∨ nm = "" then reg
    else if nm ∈ reg then reg else reg ++ [nm]
  | .closeW nm => reg.filter (fun x => x ≠ nm)

/-- Running a sequence of registry operations from the empty registry
(`this.windows = this.windows || {}`). -/
def wmRun (ops : List WinOp) : List String :=
  ops.foldl wmStep []

-- ===================== setter registry and override policy =====================

/-- Origin tags standing in for setter closures in the registry: a dynamic
top-level setter for a state key, a dynamic nested setter for a discovered
path, or a user-supplied custom setter. -/
inductive STag where
  | dynKey (s : String)
  | dynNested (p : List String)
  | custom (s : String)
deriving DecidableEq

/-- The top-level loop of `createStateSetters`: one dynamic setter per state
key whose formatted name is generated and which is not ignored. -/
def dynTopSetters (state : JVal) (ignored : List String) : List (String × STag) :=
  (fieldsOfJ state).foldl
    (fun acc kv =>
      match formatStateName kv.1 "set" with
      | some n => if kv.1 ∈ ignored then acc else assocSet acc n (.dynKey kv.1)
      | none => acc)
    []

/-- The nested loop of `createStateSetters`: one dynamic setter per discovered
nested route, named by the underscore-joined path. -/
def addNestedSetters (state : JVal) (ignored : List String) (setters : List (String × STag)) :
    List (String × STag) :=
  (getNestedRoutes state).foldl
    (fun acc nsPath =>
      let nestedName := String.intercalate "_" nsPath
      match formatStateName nestedName "set" with
      | some n => if nestedName ∈ ignored then acc else assocSet acc n (.dynNested nsPath)
      | none => acc)
    setters

/-- The source's `createStateSetters(state, ignoredSetters, nestedSetters)`,
reduced to the registry of names and origins. -/
def createStateSettersM (state : JVal) (ignored : List String) (nestedSetters : Bool) :
    List (String × STag) :=
  if nestedSetters then addNestedSetters state ignored (dynTopSetters state ignored)
  else dynTopSetters state ignored

/-- The overwrite-protection loop of `createProvider` (the
`allowSetterOverwrite = false` branch): iterate the custom setters' keys; a
key colliding with a dynamic key warns when `developmentWarnings` is on and
the protection level is exactly 1, throws when `developmentWarnings` is on and
the level is at least 2, and in every non-throwing case is deleted from the
custom setters. -/
def overwriteGuard (developmentWarnings : Bool) (overwriteProtectionLevel : Nat)
    (dynamicKeys : List String) :
    List String → List (String × STag) → Except String (List String × List (String × STag))
  | [], customs => .ok ([], customs)
  | key :: restKeys, customs =>
    if key ∈ dynamicKeys then
      if developmentWarnings ∧ 2 ≤ overwriteProtectionLevel then
        .error "The user defined setter was blocked from overwriting a dynamically generated setter of the same name."
      else
        match overwriteGuard developmentWarnings overwriteProtectionLevel dynamicKeys restKeys
            (assocDel customs key) with
        | .ok (warns, cs) =>
          .ok ((if developmentWarnings ∧ overwriteProtectionLevel = 1 then [key] else []) ++ warns, cs)
        | .error e => .error e
    else overwriteGuard developmentWarnings overwriteProtectionLevel dynamicKeys restKeys customs

/-- The setter-creation phase of `createProvider`: with overwriting allowed,
custom setters spread over (and win against) dynamic ones; otherwise the
collision list is computed from `createStateSetters(state, ignoredSetters)`
(note: without the nested flag), colliding customs are dropped (or the whole
construction throws, per the guard), and the surviving customs spread over the
dynamic setters.  Returns the emitted warnings and the final registry. -/
def createProviderSetters (dynamicSetters allowSetterOverwrite developmentWarnings : Bool)
    (overwriteProtectionLevel : Nat) (nestedSetters : Bool) (state : JVal)
    (ignored : List String) (customs : List (String × STag)) :
    Except String (List String × List (String × STag)) :=
  if allowSetterOverwrite then
    .ok ([], if dynamicSetters then spreadA (createStateSettersM state ignored nestedSetters) customs
             else spreadA [] customs)
  else
    let dynamicKeys := (createStateSettersM state ignored false).map (fun p => p.1)
    match overwriteGuard developmentWarnings overwriteProtectionLevel dynamicKeys
        (customs.map (fun p => p.1)) customs with
    | .error e => .error e
    | .ok (warns, remaining) =>
      .ok (warns, if dynamicSetters then
                    spreadA (createStateSettersM state ignored nestedSetters) remaining
                  else spreadA [] remaining)

-- ===================== connectToLocalStorage =====================

/-- The merged storage options (`{...DEFAULT_STORAGE_OPTIONS, ...options}`).
`name` and `providerWindow` use `""` for the absent/`null` default (both are
used through JS truthiness in the source). -/
structure StorageOptions where
  name : String
  providerWindow : String
  subscriberWindows : List String
  initializeFromLocalStorage : Bool
  removeChildrenOnUnload : Bool
  clearStorageOnUnload : Bool
  privateStatePaths : List PEntry

/-- Object spread `{...a, ...b}` on JSON trees: only mapping operands
contribute fields; the result is always a mapping. -/
def spreadJ (a b : JVal) : JVal :=
  .jobj (spreadA (fieldsOfJ a) (fieldsOfJ b))

/-- The source's `connectToLocalStorage`: requires a storage name, defaults
the provider window name to it, reassigns a foreign or empty window name to
the provider identity, then (a) merges the persisted snapshot into the state
when `initializeFromLocalStorage` is set, and (b) fully replaces the state by
the persisted snapshot when the (possibly reassigned) window name is a
subscriber.  Returns the resulting state, window name, and resolved provider
window name. -/
def connectToLocalStorage (state : JVal) (windowName : String) (so : StorageOptions)
    (store : Store) : Except String (JVal × String × String) :=
  if so.name = "" then
    .error "When connecting your cf instance to the local storage, you must provide an unique name"
  else
    let pw := if so.providerWindow = "" then so.name else so.providerWindow
    let wn1 := if windowName ≠ "" ∧ windowName ∉ so.subscriberWindows ∧ windowName ≠ pw
               then pw else windowName
    let wn2 := if wn1 = "" ∧ pw ≠ "" then pw else wn1
    let st1 := if so.initializeFromLocalStorage then
                 match store so.name with
                 | some snap => spreadJ state snap
                 | none => state
               else state
    let st2 := if wn2 ∈ so.subscriberWindows then
                 match store so.name with
                 | some snap => snap
                 | none => st1
               else st1
    .ok (st2, wn2, pw)

-- ===================== concrete instances used by witnesses =====================

/-- A store with no persisted entries. -/
def emptyStore : Store := fun _ => none

/-- A one-object heap holding the state of scenario D:
`{secret: 1, pub: 2}` at address 0. -/
def c1h : Heap :=
  ⟨fun a => if a = 0 then some [("secret", HVal.hnum 1), ("pub", HVal.hnum 2)] else none, 1⟩

/-- A two-object heap holding the state of scenario C (plus one sibling):
`{nested: {v: "x", w: "s"}}`, root at address 0, inner object at address 1. -/
def c7h : Heap :=
  ⟨fun a =>
    if a = 0 then some [("nested", HVal.hobj 1)]
    else if a = 1 then some [("v", HVal.hstr "x"), ("w", HVal.hstr "s")]
    else none, 2⟩

/-- A small nested state: `{a: 1, nested: {v: "x"}}`. -/
def c6s : JVal := .jobj [("a", .jnum 1), ("nested", .jobj [("v", .jstr "x")])]

/-- A two-object heap with a private nested entry:
`{a: {secret: 5, keep: 6}}`, root at address 0, inner object at address 1. -/
def c9h : Heap :=
  ⟨fun a =>
    if a = 0 then some [("a", HVal.hobj 1)]
    else if a = 1 then some [("secret", HVal.hnum 5), ("keep", HVal.hnum 6)]
    else none, 2⟩

/-- A two-object heap holding `{a: {secret: 5, keep: 6}, pub: 7}`: inner
object at address 0, root at address 1. -/
def c2h : Heap :=
  ⟨fun a =>
    if a = 0 then some [("secret", HVal.hnum 5), ("keep", HVal.hnum 6)]
    else if a = 1 then some [("a", HVal.hobj 0), ("pub", HVal.hnum 7)]
    else none, 2⟩

/-- A private-entry list mixing a top-level string entry, a nested path and a
path whose intermediate key is missing from the state. -/
def c2entries : List PEntry :=
  [PEntry.key "pub", PEntry.path ["a", "secret"], PEntry.path ["missing", "x"]]

-- ============================================================================
-- Theorems
-- ============================================================================

-- ===================== C5: the name formatter =====================

/-- C5 counterexample: the claim says the null sentinel is returned exactly
when the first character is already uppercase; but `formatStateName "_a"`
returns the sentinel although the underscore is not an uppercase letter (the
source tests `name[0] === name[0].toUpperCase()`, which also holds for
caseless characters). -/
theorem c5_counterexample :
    formatStateName "_a" "set" = none ∧ ('_'.isUpper = false) := by
  constructor
  · rfl
  · decide

/-- C5 (amended): for every non-empty name (written as a first character and a
tail) and every prefix, `formatStateName` is pure and total; it returns the
null sentinel exactly when the first character is unchanged by uppercasing
(uppercase letters and caseless characters alike), and otherwise returns the
prefix concatenated with the name whose first character is uppercased and
whose remaining characters are unchanged. -/
theorem c5_formatStateName_spec (pre : String) (c : Char) (rest : List Char) :
    (formatStateName (String.mk (c :: rest)) pre = none ↔ c.toUpper = c)
    ∧ (c.toUpper ≠ c →
        formatStateName (String.mk (c :: rest)) pre = some (pre ++ String.mk (c.toUpper :: rest))) := by
  constructor
  · constructor
    · intro hnone
      by_contra hne
      simp only [formatStateName, String.mk, if_neg hne] at hnone
      exact Option.noConfusion hnone
    · intro heq
      simp only [formatStateName, String.mk, if_pos heq]
  · intro hne
    simp only [formatStateName, String.mk, if_neg hne]

/-- C5 witness: a concrete lowercase name is formatted to a setter name. -/
theorem c5_witness :
    'a'.toUpper ≠ 'a'
    ∧ formatStateName (String.mk ('a' :: [])) "set" = some ("set" ++ String.mk ('a'.toUpper :: [])) :=
  ⟨by decide, (c5_formatStateName_spec "set" 'a' []).2 (by decide)⟩

-- ===================== C3: window registry invariant =====================

/-- C3 counterexample: `windowManager.open` records any truthy name without
checking membership in `subscriberWindows`, so a reachable registry state has
a key outside an empty subscriber set. -/
theorem c3_counterexample :
    "x" ∈ wmRun [WinOp.openW "u" "x"] ∧ "x" ∉ ([] : List String) := by
  constructor
  · simp [wmRun, wmStep]
  · simp

/-- Auxiliary invariant for the window registry: folding registry operations
preserves containment of the key set in `subs` provided every opened name is
in `subs`. -/
theorem wmRun_subset_of (subs : List String) :
    ∀ (ops : List WinOp) (reg : List String),
      (∀ k ∈ reg, k ∈ subs) →
      (∀ url nm, WinOp.openW url nm ∈ ops → nm ∈ subs) →
      ∀ k ∈ ops.foldl wmStep reg, k ∈ subs := by
  intro ops
  induction ops with
  | nil => intro reg hreg _ k hk; exact hreg k hk
  | cons op rest ih =>
    intro reg hreg hopen k hk
    refine ih (wmStep reg op) ?_ (fun url nm hmem => hopen url nm (List.mem_cons_of_mem _ hmem)) k hk
    intro x hx
    cases op with
    | openW url nm =>
      simp only [wmStep] at hx
      by_cases hf : url = "" ∨ nm = ""
      · exact hreg x (by simpa [hf] using hx)
      · simp only [if_neg hf] at hx
        by_cases hmem : nm ∈ reg
        · exact hreg x (by simpa [hmem] using hx)
        · simp only [if_neg hmem, List.mem_append, List.mem_singleton] at hx
          rcases hx with hx | hx
          · exact hreg x hx
          · subst hx; exact hopen url x (List.mem_cons_self _ _)
    | closeW nm =>
      simp only [wmStep, List.mem_filter] at hx
      exact hreg x hx.1

/-- C3 (amended): the keys of the window registry stay a subset of the
Synchronization Descriptor's subscriber set at every reachable point,
provided every `open` invocation uses a name from the subscriber set (the
caller responsibility stated in the spec's window-lifecycle section: the code
itself never enforces membership). -/
theorem c3_registry_subset (ops : List WinOp) (subs : List String)
    (hopen : ∀ url nm, WinOp.openW url nm ∈ ops → nm ∈ subs) :
    ∀ k ∈ wmRun ops, k ∈ subs :=
  wmRun_subset_of subs ops [] (by intro k hk; cases hk) hopen

/-- C3 witness: opening a declared subscriber keeps the registry inside the
subscriber set. -/
theorem c3_witness : "x" ∈ ["x", "y"] :=
  c3_registry_subset [WinOp.openW "u" "x"] ["x", "y"]
    (by
      intro url nm hmem
      simp only [List.mem_singleton] at hmem
      cases hmem
      simp)
    "x" (by simp [wmRun, wmStep])

-- ===================== C8: subscriber initialization =====================

/-- C8: for a context whose (non-empty) window name is a subscriber and for
which a snapshot is persisted under the storage key, `connectToLocalStorage`
fully replaces the initial state with the persisted snapshot — the
`initializeFromLocalStorage` flag is part of the quantified options and does
not affect the outcome — so no default (or private) value of the context
survives initialization.  (The non-empty window name reflects the spec's role
assignment: an unset identity is reassigned to the provider.) -/
theorem c8_subscriber_full_replace (state : JVal) (windowName : String) (so : StorageOptions)
    (store : Store) (snap : JVal)
    (hname : so.name ≠ "") (hwn : windowName ≠ "") (hsub : windowName ∈ so.subscriberWindows)
    (hsnap : store so.name = some snap) :
    connectToLocalStorage state windowName so store
      = .ok (snap, windowName, if so.providerWindow = "" then so.name else so.providerWindow) := by
  have h1 : ¬(windowName ≠ "" ∧ windowName ∉ so.subscriberWindows
      ∧ windowName ≠ (if so.providerWindow = "" then so.name else so.providerWindow)) := by
    intro hcon
    exact hcon.2.1 hsub
  have h2 : ¬(windowName = ""
      ∧ (if so.providerWindow = "" then so.name else so.providerWindow) ≠ "") :=
    fun hcon => hwn hcon.1
  simp only [connectToLocalStorage, if_neg hname, if_neg h1, if_neg h2, if_pos hsub, hsnap]

/-- C8 witness: a subscriber window replaces its default state (including a
private default) with the persisted snapshot. -/
theorem c8_witness :
    connectToLocalStorage (JVal.jobj [("secret", JVal.jnum 1)]) "child"
      ⟨"main", "", ["child"], true, true, true, []⟩
      (setItem emptyStore "main" (JVal.jobj [("pub", JVal.jnum 2)]))
      = .ok (JVal.jobj [("pub", JVal.jnum 2)], "child", "main") :=
  c8_subscriber_full_replace _ _ _ _ _
    (by decide) (by decide) (by simp) rfl

-- ===================== C1: the update pipeline =====================

/-- C1: with synchronization enabled, once the native batched replacement has
committed, the snapshot persisted under the storage key is the serialization
of `cleanState(newState, privateStatePaths)` exactly when private paths are
configured and the invoking window is the provider, and the serialization of
the full new state otherwise; afterwards the caller's callback and the
pipeline's promise are completed with the same new state, callback first.
The serializability hypotheses exclude cyclic state, on which
`JSON.stringify` would throw. -/
theorem c1_pipeline (h : Heap) (stateVal : HVal) (privatePaths : List PEntry)
    (storageName windowName providerWindow : String) (store : Store)
    (hser1 : privatePaths ≠ [] ∧ windowName = providerWindow →
      (stringifyH (cleanState h stateVal privatePaths).1
        (cleanState h stateVal privatePaths).2.1).isSome = true)
    (hser2 : ¬(privatePaths ≠ [] ∧ windowName = providerWindow) →
      (stringifyH h stateVal).isSome = true) :
    ∃ h' store',
      setStateCommit h stateVal true privatePaths storageName windowName providerWindow store
        = some (h', store', [PipeEv.cb stateVal, PipeEv.res stateVal])
      ∧ store' storageName
        = (if privatePaths ≠ [] ∧ windowName = providerWindow then
             stringifyH (cleanState h stateVal privatePaths).1
               (cleanState h stateVal privatePaths).2.1
           else stringifyH h stateVal) := by
  by_cases hc : privatePaths ≠ [] ∧ windowName = providerWindow
  · obtain ⟨j, hj⟩ := Option.isSome_iff_exists.mp (hser1 hc)
    refine ⟨(cleanState h stateVal privatePaths).1, setItem store storageName j, ?_, ?_⟩
    · simp only [setStateCommit, if_pos hc, if_pos True.intro, hj]
    · simp [setItem, hc, hj]
  · obtain ⟨j, hj⟩ := Option.isSome_iff_exists.mp (hser2 hc)
    refine ⟨h, setItem store storageName j, ?_, ?_⟩
    · simp only [setStateCommit, if_neg hc, if_pos True.intro, hj]
    · simp [setItem, hc, hj]

/-- C1 witness: scenario D — state `{secret: 1, pub: 2}` with private path
`secret` written from the provider window persists only `{pub: 2}`. -/
theorem c1_witness :
    ∃ h' store',
      setStateCommit c1h (HVal.hobj 0) true [PEntry.key "secret"] "main" "main" "main" emptyStore
        = some (h', store', [PipeEv.cb (HVal.hobj 0), PipeEv.res (HVal.hobj 0)])
      ∧ store' "main"
        = (if [PEntry.key "secret"] ≠ [] ∧ "main" = "main" then
             stringifyH (cleanState c1h (HVal.hobj 0) [PEntry.key "secret"]).1
               (cleanState c1h (HVal.hobj 0) [PEntry.key "secret"]).2.1
           else stringifyH c1h (HVal.hobj 0)) :=
  c1_pipeline c1h (HVal.hobj 0) [PEntry.key "secret"] "main" "main" "main" emptyStore
    (fun _ => rfl) (fun hn => absurd ⟨by decide, rfl⟩ hn)

-- ===================== association-list lemmas =====================

theorem find?_map_replace {α : Type} (m : List (String × α)) (k : String) (v : α) :
    (m.map (fun p => if p.1 = k then (k, v) else p)).find? (fun p => p.1 = k)
      = (m.find? (fun p => p.1 = k)).map (fun _ => (k, v)) := by
  induction m with
  | nil => rfl
  | cons hd tl ih =>
    by_cases h : hd.1 = k
    · simp [List.find?, h]
    · simp [List.find?, h, ih]

theorem assocLookup_assocSet_self {α : Type} (m : List (String × α)) (k : String) (v : α) :
    assocLookup (assocSet m k v) k = some v := by
  unfold assocSet assocLookup
  by_cases h : m.any (fun p => p.1 = k)
  · rw [if_pos h, find?_map_replace]
    obtain ⟨p, hp, hpk⟩ := List.any_eq_true.mp h
    have : (m.find? (fun p => p.1 = k)).isSome = true :=
      List.find?_isSome.mpr ⟨p, hp, hpk⟩
    obtain ⟨q, hq⟩ := Option.isSome_iff_exists.mp this
    simp [hq]
  · rw [if_neg h]
    have hnone : m.find? (fun p => p.1 = k) = none := by
      rw [List.find?_eq_none]
      intro p hp hpk
      exact h (List.any_eq_true.mpr ⟨p, hp, hpk⟩)
    induction m with
    | nil => simp [List.find?]
    | cons hd tl ih2 =>
      rw [List.find?] at hnone
      by_cases hh : (decide (hd.1 = k)) = true
      · simp [hh] at hnone
      · have hfn : tl.find? (fun p => p.1 = k) = none := by
          simpa [hh] using hnone
        have hany : ¬ tl.any (fun p => p.1 = k) = true := by
          intro hc
          obtain ⟨p, hp, hpk⟩ := List.any_eq_true.mp hc
          have := List.find?_eq_none.mp hfn p hp
          exact absurd hpk this
        simpa [List.find?, hh] using ih2 hany hfn

theorem find?_map_replace_ne {α : Type} (m : List (String × α)) (k k2 : String) (v : α)
    (hne : k2 ≠ k) :
    (m.map (fun p => if p.1 = k then (k, v) else p)).find? (fun p => p.1 = k2)
      = m.find? (fun p => p.1 = k2) := by
  induction m with
  | nil => rfl
  | cons hd tl ih =>
    by_cases hh : hd.1 = k
    · have h1 : ¬ ((k : String) = k2) := fun hc => hne hc.symm
      have h2 : ¬ (hd.1 = k2) := fun hc => h1 (hh.symm.trans hc)
      simp [List.find?, hh, h1, h2, ih]
    · simp only [List.map, if_neg hh, List.find?]
      by_cases h2 : hd.1 = k2
      · simp [h2]
      · simp [h2, ih]

theorem find?_append_single_ne {α : Type} (m : List (String × α)) (k k2 : String) (v : α)
    (hne : k2 ≠ k) :
    (m ++ [(k, v)]).find? (fun p => p.1 = k2) = m.find? (fun p => p.1 = k2) := by
  induction m with
  | nil => simp [List.find?, Ne.symm hne]
  | cons hd tl ih =>
    simp only [List.cons_append, List.find?]
    by_cases h2 : hd.1 = k2
    · simp [h2]
    · simp [h2, ih]

theorem assocLookup_assocSet_ne {α : Type} (m : List (String × α)) (k k2 : String) (v : α)
    (hne : k2 ≠ k) : assocLookup (assocSet m k v) k2 = assocLookup m k2 := by
  unfold assocSet assocLookup
  by_cases h : m.any (fun p => p.1 = k)
  · rw [if_pos h, find?_map_replace_ne m k k2 v hne]
  · rw [if_neg h, find?_append_single_ne m k k2 v hne]

theorem assocLookup_mem {α : Type} (m : List (String × α)) (k : String) (v : α)
    (h : assocLookup m k = some v) : (k, v) ∈ m := by
  induction m with
  | nil => simp [assocLookup, List.find?] at h
  | cons hd tl ih =>
    rw [assocLookup, List.find?] at h
    by_cases hh : (decide (hd.1 = k)) = true
    · simp only [hh] at h
      have hk : hd.1 = k := of_decide_eq_true hh
      have : hd = (k, v) := by
        cases hd with
        | mk a b =>
          simp only [Option.map_some'] at h
          cases h
          simp only at hk
          rw [hk]
      rw [← this]
      exact List.mem_cons_self _ _
    · simp only [hh] at h
      exact List.mem_cons_of_mem _ (ih h)

theorem assocLookup_isSome_of_mem_keys {α : Type} (m : List (String × α)) (k : String)
    (h : k ∈ m.map (fun p => p.1)) : (assocLookup m k).isSome = true := by
  induction m with
  | nil => simp at h
  | cons hd tl ih =>
    rw [assocLookup, List.find?]
    by_cases hh : (decide (hd.1 = k)) = true
    · simp [hh]
    · have hk : hd.1 ≠ k := fun hc => hh (decide_eq_true hc)
      simp only [List.map, List.mem_cons] at h
      rcases h with h | h
      · exact absurd h.symm hk
      · simp only [hh]
        exact ih h

theorem keys_ne_of_assocLookup_eq_none {α : Type} (m : List (String × α)) (k : String)
    (h : assocLookup m k = none) : ∀ kv ∈ m, kv.1 ≠ k := by
  intro kv hkv hc
  have hs := assocLookup_isSome_of_mem_keys m k (List.mem_map.mpr ⟨kv, hkv, hc⟩)
  rw [h] at hs
  simp at hs

theorem assocLookup_spreadA_of_lookup_none {α : Type} (b : List (String × α)) :
    ∀ (a : List (String × α)) (k : String), assocLookup b k = none →
      assocLookup (spreadA a b) k = assocLookup a k := by
  induction b with
  | nil => intro a k _; rfl
  | cons hd tl ih =>
    intro a k hnone
    have hne : hd.1 ≠ k := keys_ne_of_assocLookup_eq_none _ _ hnone hd (List.mem_cons_self _ _)
    have htl : assocLookup tl k = none := by
      rw [assocLookup, List.find?] at hnone
      by_cases hh : (decide (hd.1 = k)) = true
      · simp [hh] at hnone
      · simpa [assocLookup, hh] using hnone
    show assocLookup (spreadA (assocSet a hd.1 hd.2) tl) k = assocLookup a k
    rw [ih (assocSet a hd.1 hd.2) k htl, assocLookup_assocSet_ne _ _ _ _ (Ne.symm hne)]

theorem mem_assocSet {α : Type} (m : List (String × α)) (k : String) (v : α) (kv : String × α)
    (h : kv ∈ assocSet m k v) : kv ∈ m ∨ kv = (k, v) := by
  unfold assocSet at h
  by_cases hc : m.any (fun p => p.1 = k)
  · rw [if_pos hc] at h
    obtain ⟨p, hp, hpe⟩ := List.mem_map.mp h
    by_cases hpk : p.1 = k
    · right; rw [← hpe]; simp [hpk]
    · left; rw [← hpe]; simpa [hpk] using hp
  · rw [if_neg hc, List.mem_append] at h
    rcases h with h | h
    · exact Or.inl h
    · right; simpa using h

theorem mem_assocDel {α : Type} (m : List (String × α)) (k : String) (kv : String × α)
    (h : kv ∈ assocDel m k) : kv ∈ m ∧ kv.1 ≠ k := by
  unfold assocDel at h
  have := List.mem_filter.mp h
  exact ⟨this.1, by simpa using this.2⟩

theorem assocLookup_isSome_assocSet {α : Type} (m : List (String × α)) (k k2 : String) (v : α)
    (h : (assocLookup m k).isSome = true) :
    (assocLookup (assocSet m k2 v) k).isSome = true := by
  by_cases he : k = k2
  · subst he; rw [assocLookup_assocSet_self]; rfl
  · rw [assocLookup_assocSet_ne _ _ _ _ he]; exact h

theorem assocLookup_assocDel_self {α : Type} (m : List (String × α)) (k : String) :
    assocLookup (assocDel m k) k = none := by
  by_cases h : assocLookup (assocDel m k) k = none
  · exact h
  · obtain ⟨v, hv⟩ := Option.ne_none_iff_exists'.mp h
    have := mem_assocDel m k (k, v) (assocLookup_mem _ _ _ hv)
    exact absurd rfl this.2

-- ===================== overwrite-guard lemmas =====================

theorem overwriteGuard_throws (level : Nat) (dynamicKeys : List String) (hlev : 2 ≤ level) :
    ∀ (keys : List String) (customs : List (String × STag)) (k : String),
      k ∈ keys → k ∈ dynamicKeys →
      ∃ e, overwriteGuard true level dynamicKeys keys customs = .error e := by
  intro keys
  induction keys with
  | nil => intro customs k hk _; cases hk
  | cons key rest ih =>
    intro customs k hk hdyn
    by_cases hkey : key ∈ dynamicKeys
    · refine ⟨"The user defined setter was blocked from overwriting a dynamically generated setter of the same name.", ?_⟩
      have hcond : True ∧ 2 ≤ level := ⟨trivial, hlev⟩
      simp only [overwriteGuard, if_pos hkey, if_pos hcond]
    · have hne : k ≠ key := fun hc => hkey (hc ▸ hdyn)
      have hkrest : k ∈ rest := by
        rcases List.mem_cons.mp hk with h | h
        · exact absurd h hne
        · exact h
      obtain ⟨e, he⟩ := ih customs k hkrest hdyn
      exact ⟨e, by simpa only [overwriteGuard, if_neg hkey] using he⟩

theorem overwriteGuard_ok (devW : Bool) (level : Nat) (dynamicKeys : List String)
    (hno : ¬(devW = true ∧ 2 ≤ level)) :
    ∀ (keys : List String) (customs : List (String × STag)),
      ∃ warns cs, overwriteGuard devW level dynamicKeys keys customs = .ok (warns, cs)
        ∧ (∀ k, k ∈ keys → k ∈ dynamicKeys → assocLookup cs k = none)
        ∧ (∀ k, k ∈ warns ↔ (devW = true ∧ level = 1 ∧ k ∈ keys ∧ k ∈ dynamicKeys))
        ∧ (∀ kv, kv ∈ cs → kv ∈ customs) := by
  intro keys
  induction keys with
  | nil =>
    intro customs
    exact ⟨[], customs, rfl, fun k hk _ => absurd hk (List.not_mem_nil k),
      fun k => by simp, fun kv h => h⟩
  | cons key rest ih =>
    intro customs
    by_cases hkey : key ∈ dynamicKeys
    · obtain ⟨w, cs, heq, hdel, hwarn, hsub⟩ := ih (assocDel customs key)
      refine ⟨(if devW = true ∧ level = 1 then [key] else []) ++ w, cs, ?_, ?_, ?_, ?_⟩
      · simp only [overwriteGuard, if_pos hkey, if_neg hno, heq]
      · intro k hk hdyn
        by_cases hkr : k ∈ rest
        · exact hdel k hkr hdyn
        · have hkk : k = key := by
            rcases List.mem_cons.mp hk with h | h
            · exact h
            · exact absurd h hkr
          subst hkk
          by_cases hlk : assocLookup cs k = none
          · exact hlk
          · obtain ⟨v, hv⟩ := Option.ne_none_iff_exists'.mp hlk
            have hmem := hsub (k, v) (assocLookup_mem _ _ _ hv)
            exact absurd rfl (mem_assocDel _ _ _ hmem).2
      · intro k
        constructor
        · intro hk
          rcases List.mem_append.mp hk with h | h
          · by_cases hc : devW = true ∧ level = 1
            · rw [if_pos hc] at h
              have : k = key := List.mem_singleton.mp h
              subst this
              exact ⟨hc.1, hc.2, List.mem_cons_self _ _, hkey⟩
            · rw [if_neg hc] at h; cases h
          · obtain ⟨h1, h2, h3, h4⟩ := (hwarn k).mp h
            exact ⟨h1, h2, List.mem_cons_of_mem _ h3, h4⟩
        · rintro ⟨h1, h2, h3, h4⟩
          rcases List.mem_cons.mp h3 with h | h
          · subst h
            exact List.mem_append.mpr (Or.inl (by simp [h1, h2]))
          · exact List.mem_append.mpr (Or.inr ((hwarn k).mpr ⟨h1, h2, h, h4⟩))
      · intro kv hkv
        exact (mem_assocDel _ _ _ (hsub kv hkv)).1
    · obtain ⟨w, cs, heq, hdel, hwarn, hsub⟩ := ih customs
      refine ⟨w, cs, ?_, ?_, ?_, hsub⟩
      · simp only [overwriteGuard, if_neg hkey, heq]
      · intro k hk hdyn
        have hne : k ≠ key := fun hc => hkey (hc ▸ hdyn)
        rcases List.mem_cons.mp hk with h | h
        · exact absurd h hne
        · exact hdel k h hdyn
      · intro k
        rw [hwarn k]
        constructor
        · rintro ⟨h1, h2, h3, h4⟩
          exact ⟨h1, h2, List.mem_cons_of_mem _ h3, h4⟩
        · rintro ⟨h1, h2, h3, h4⟩
          rcases List.mem_cons.mp h3 with h | h
          · exact absurd (h ▸ h4) hkey
          · exact ⟨h1, h2, h, h4⟩

-- ===================== dynamic-registry lemmas =====================

theorem dynTopSetters_no_custom (state : JVal) (ignored : List String) :
    ∀ kv ∈ dynTopSetters state ignored, ∀ s, kv.2 ≠ STag.custom s := by
  unfold dynTopSetters
  have : ∀ (l : List (String × JVal)) (acc : List (String × STag)),
      (∀ kv ∈ acc, ∀ s, kv.2 ≠ STag.custom s) →
      ∀ kv ∈ l.foldl (fun acc kv =>
          match formatStateName kv.1 "set" with
          | some n => if kv.1 ∈ ignored then acc else assocSet acc n (.dynKey kv.1)
          | none => acc) acc, ∀ s, kv.2 ≠ STag.custom s := by
    intro l
    induction l with
    | nil => intro acc hacc kv hkv; exact hacc kv hkv
    | cons hd tl ih =>
      intro acc hacc kv hkv
      refine ih _ ?_ kv hkv
      intro kv2 hkv2 s
      cases hfmt : formatStateName hd.1 "set" with
      | none => simp only [hfmt] at hkv2; exact hacc kv2 hkv2 s
      | some n =>
        simp only [hfmt] at hkv2
        by_cases hig : hd.1 ∈ ignored
        · rw [if_pos hig] at hkv2; exact hacc kv2 hkv2 s
        · rw [if_neg hig] at hkv2
          rcases mem_assocSet _ _ _ _ hkv2 with h | h
          · exact hacc kv2 h s
          · rw [h]; simp
  exact this _ _ (fun kv hkv => absurd hkv (List.not_mem_nil kv))

theorem addNestedSetters_no_custom (state : JVal) (ignored : List String)
    (setters : List (String × STag)) (hs : ∀ kv ∈ setters, ∀ s, kv.2 ≠ STag.custom s) :
    ∀ kv ∈ addNestedSetters state ignored setters, ∀ s, kv.2 ≠ STag.custom s := by
  unfold addNestedSetters
  have : ∀ (l : List (List String)) (acc : List (String × STag)),
      (∀ kv ∈ acc, ∀ s, kv.2 ≠ STag.custom s) →
      ∀ kv ∈ l.foldl (fun acc nsPath =>
          let nestedName := String.intercalate "_" nsPath
          match formatStateName nestedName "set" with
          | some n => if nestedName ∈ ignored then acc else assocSet acc n (.dynNested nsPath)
          | none => acc) acc, ∀ s, kv.2 ≠ STag.custom s := by
    intro l
    induction l with
    | nil => intro acc hacc kv hkv; exact hacc kv hkv
    | cons hd tl ih =>
      intro acc hacc kv hkv
      refine ih _ ?_ kv hkv
      intro kv2 hkv2 s
      cases hfmt : formatStateName (String.intercalate "_" hd) "set" with
      | none => simp only [hfmt] at hkv2; exact hacc kv2 hkv2 s
      | some n =>
        simp only [hfmt] at hkv2
        by_cases hig : String.intercalate "_" hd ∈ ignored
        · rw [if_pos hig] at hkv2; exact hacc kv2 hkv2 s
        · rw [if_neg hig] at hkv2
          rcases mem_assocSet _ _ _ _ hkv2 with h | h
          · exact hacc kv2 h s
          · rw [h]; simp
  exact this _ _ hs

theorem createStateSettersM_no_custom (state : JVal) (ignored : List String) (nested : Bool) :
    ∀ kv ∈ createStateSettersM state ignored nested, ∀ s, kv.2 ≠ STag.custom s := by
  unfold createStateSettersM
  by_cases h : nested = true
  · rw [if_pos h]
    exact addNestedSetters_no_custom state ignored _ (dynTopSetters_no_custom state ignored)
  · rw [if_neg h]
    exact dynTopSetters_no_custom state ignored

theorem addNestedSetters_isSome (state : JVal) (ignored : List String) (k : String) :
    ∀ (setters : List (String × STag)), (assocLookup setters k).isSome = true →
      (assocLookup (addNestedSetters state ignored setters) k).isSome = true := by
  unfold addNestedSetters
  generalize getNestedRoutes state = l
  induction l with
  | nil => intro setters hs; exact hs
  | cons hd tl ih =>
    intro setters hs
    refine ih _ ?_
    cases hfmt : formatStateName (String.intercalate "_" hd) "set" with
    | none => simpa only [hfmt] using hs
    | some n =>
      simp only [hfmt]
      by_cases hig : String.intercalate "_" hd ∈ ignored
      · rw [if_pos hig]; exact hs
      · rw [if_neg hig]; exact assocLookup_isSome_assocSet _ _ _ _ hs

theorem createStateSettersM_isSome (state : JVal) (ignored : List String) (nested : Bool)
    (k : String) (h : k ∈ (createStateSettersM state ignored false).map (fun p => p.1)) :
    (assocLookup (createStateSettersM state ignored nested) k).isSome = true := by
  have hbase : (assocLookup (dynTopSetters state ignored) k).isSome = true := by
    refine assocLookup_isSome_of_mem_keys _ _ ?_
    simpa only [createStateSettersM, if_neg (by simp : ¬ (False : Prop))] using h
  unfold createStateSettersM
  by_cases hn : nested = true
  · rw [if_pos hn]
    exact addNestedSetters_isSome state ignored k _ hbase
  · rw [if_neg hn]
    exact hbase

-- ===================== C4: override policy severity =====================

/-- C4 counterexample: with `developmentWarnings` off, `allowSetterOverwrite`
false and `overwriteProtectionLevel = 2`, a custom setter colliding with the
auto-derived `setA` does not make construction fail — the throw in the source
sits inside the `developmentWarnings` check — refuting the claim that
severity 2 alone forces a construction failure. -/
theorem c4_counterexample :
    (createProviderSetters true false false 2 false (JVal.jobj [("a", JVal.jnum 1)]) []
      [("setA", STag.custom "setA")]).isOk = true := by
  rfl

/-- C4 (amended): provided `developmentWarnings` is on and the custom setter's
name collides with a top-level auto-derived dynamic setter name (the collision
list the source computes omits nested-derived names), then under
`allowSetterOverwrite = false`: at severity 2 or greater `createProvider`
throws before any provider is constructed; at severity 1 a warning naming the
setter is emitted and the custom entry is dropped; at severity 0 it is
dropped silently; and with dynamic setters enabled the auto-derived setter
remains available in the non-throwing cases. -/
theorem c4_override_policy (state : JVal) (ignored : List String)
    (customs : List (String × STag)) (nested : Bool) (k : String)
    (hdyn : k ∈ (createStateSettersM state ignored false).map (fun p => p.1))
    (hcust : k ∈ customs.map (fun p => p.1)) :
    (∀ level, 2 ≤ level →
      ∃ e, createProviderSetters true false true level nested state ignored customs = .error e)
    ∧ (∃ warns fin,
        createProviderSetters true false true 1 nested state ignored customs = .ok (warns, fin)
        ∧ k ∈ warns
        ∧ assocLookup fin k = assocLookup (createStateSettersM state ignored nested) k
        ∧ (assocLookup fin k).isSome = true)
    ∧ (∃ fin,
        createProviderSetters true false true 0 nested state ignored customs = .ok ([], fin)
        ∧ assocLookup fin k = assocLookup (createStateSettersM state ignored nested) k
        ∧ (assocLookup fin k).isSome = true) := by
  refine ⟨?_, ?_, ?_⟩
  · intro level hlev
    obtain ⟨e, he⟩ := overwriteGuard_throws level _ hlev (customs.map (fun p => p.1)) customs k
      hcust hdyn
    refine ⟨e, ?_⟩
    simp [createProviderSetters, he]
  · obtain ⟨warns, cs, heq, hdel, hwarn, _⟩ :=
      overwriteGuard_ok true 1 ((createStateSettersM state ignored false).map (fun p => p.1))
        (by decide) (customs.map (fun p => p.1)) customs
    have hnone := hdel k hcust hdyn
    have hlook : assocLookup (spreadA (createStateSettersM state ignored nested) cs) k
        = assocLookup (createStateSettersM state ignored nested) k :=
      assocLookup_spreadA_of_lookup_none cs _ k hnone
    refine ⟨warns, spreadA (createStateSettersM state ignored nested) cs, ?_, ?_, hlook, ?_⟩
    · simp [createProviderSetters, heq]
    · exact (hwarn k).mpr ⟨rfl, rfl, hcust, hdyn⟩
    · rw [hlook]
      exact createStateSettersM_isSome state ignored nested k hdyn
  · obtain ⟨warns, cs, heq, hdel, hwarn, _⟩ :=
      overwriteGuard_ok true 0 ((createStateSettersM state ignored false).map (fun p => p.1))
        (by decide) (customs.map (fun p => p.1)) customs
    have hwempty : warns = [] := by
      apply List.eq_nil_iff_forall_not_mem.mpr
      intro x hx
      obtain ⟨_, h0, _, _⟩ := (hwarn x).mp hx
      exact absurd h0 (by simp)
    have hnone := hdel k hcust hdyn
    have hlook : assocLookup (spreadA (createStateSettersM state ignored nested) cs) k
        = assocLookup (createStateSettersM state ignored nested) k :=
      assocLookup_spreadA_of_lookup_none cs _ k hnone
    refine ⟨spreadA (createStateSettersM state ignored nested) cs, ?_, hlook, ?_⟩
    · rw [← hwempty]
      simp [createProviderSetters, heq]
    · rw [hlook]
      exact createStateSettersM_isSome state ignored nested k hdyn

/-- C4 witness: a concrete colliding custom setter `setA` over state `{a: 1}`
is dropped at severity 0 with the dynamic setter retained. -/
theorem c4_witness :
    ∃ fin,
      createProviderSetters true false true 0 false (JVal.jobj [("a", JVal.jnum 1)]) []
        [("setA", STag.custom "setA")] = .ok ([], fin)
      ∧ assocLookup fin "setA"
        = assocLookup (createStateSettersM (JVal.jobj [("a", JVal.jnum 1)]) [] false) "setA"
      ∧ (assocLookup fin "setA").isSome = true :=
  (c4_override_policy (JVal.jobj [("a", JVal.jnum 1)]) [] [("setA", STag.custom "setA")]
    false "setA" (by decide) (by decide)).2.2

-- ===================== C10: silent drop with warnings disabled =====================

/-- C10: with `developmentWarnings` off and the strict override policy
(`allowSetterOverwrite = false`), a custom setter colliding with a (top-level)
auto-derived dynamic setter is dropped silently at every
`overwriteProtectionLevel`, including 2 and greater: no warning, no error,
construction succeeds, and (with dynamic setters enabled) the auto-derived
setter — never a custom one — remains in the registry. -/
theorem c10_silent_drop (state : JVal) (ignored : List String)
    (customs : List (String × STag)) (nested : Bool) (k : String) (level : Nat)
    (hdyn : k ∈ (createStateSettersM state ignored false).map (fun p => p.1))
    (hcust : k ∈ customs.map (fun p => p.1)) :
    ∃ fin,
      createProviderSetters true false false level nested state ignored customs = .ok ([], fin)
      ∧ assocLookup fin k = assocLookup (createStateSettersM state ignored nested) k
      ∧ (assocLookup fin k).isSome = true
      ∧ ∀ s, assocLookup fin k ≠ some (STag.custom s) := by
  obtain ⟨warns, cs, heq, hdel, hwarn, _⟩ :=
    overwriteGuard_ok false level ((createStateSettersM state ignored false).map (fun p => p.1))
      (by simp) (customs.map (fun p => p.1)) customs
  have hwempty : warns = [] := by
    apply List.eq_nil_iff_forall_not_mem.mpr
    intro x hx
    obtain ⟨h0, _, _, _⟩ := (hwarn x).mp hx
    exact absurd h0 (by simp)
  have hnone := hdel k hcust hdyn
  have hlook : assocLookup (spreadA (createStateSettersM state ignored nested) cs) k
      = assocLookup (createStateSettersM state ignored nested) k :=
    assocLookup_spreadA_of_lookup_none cs _ k hnone
  refine ⟨spreadA (createStateSettersM state ignored nested) cs, ?_, hlook, ?_, ?_⟩
  · rw [← hwempty]
    simp [createProviderSetters, heq]
  · rw [hlook]
    exact createStateSettersM_isSome state ignored nested k hdyn
  · intro s hcon
    rw [hlook] at hcon
    exact createStateSettersM_no_custom state ignored nested _
      (assocLookup_mem _ _ _ hcon) s rfl

/-- C10 witness: severity 2 with warnings disabled silently drops the custom
`setA` and keeps the dynamic one. -/
theorem c10_witness :
    ∃ fin,
      createProviderSetters true false false 2 false (JVal.jobj [("a", JVal.jnum 1)]) []
        [("setA", STag.custom "setA")] = .ok ([], fin)
      ∧ assocLookup fin "setA"
        = assocLookup (createStateSettersM (JVal.jobj [("a", JVal.jnum 1)]) [] false) "setA"
      ∧ (assocLookup fin "setA").isSome = true
      ∧ ∀ s, assocLookup fin "setA" ≠ some (STag.custom s) :=
  c10_silent_drop (JVal.jobj [("a", JVal.jnum 1)]) [] [("setA", STag.custom "setA")]
    false "setA" 2 (by decide) (by decide)

-- ===================== heap-operation lemmas =====================

theorem Heap.write_next (h : Heap) (a : Addr) (o : Obj) : (h.write a o).next = h.next := rfl

theorem Heap.write_mem_self (h : Heap) (a : Addr) (o : Obj) : (h.write a o).mem a = some o := by
  simp [Heap.write]

theorem Heap.write_mem_ne (h : Heap) (a : Addr) (o : Obj) (x : Addr) (hx : x ≠ a) :
    (h.write a o).mem x = h.mem x := by
  simp [Heap.write, hx]

theorem Heap.alloc_next (h : Heap) (o : Obj) : (h.alloc o).1.next = h.next + 1 := rfl

theorem Heap.alloc_addr (h : Heap) (o : Obj) : (h.alloc o).2 = h.next := rfl

theorem Heap.alloc_mem_self (h : Heap) (o : Obj) : (h.alloc o).1.mem h.next = some o := by
  simp [Heap.alloc]

theorem Heap.alloc_mem_ne (h : Heap) (o : Obj) (x : Addr) (hx : x ≠ h.next) :
    (h.alloc o).1.mem x = h.mem x := by
  simp [Heap.alloc, hx]

theorem Heap.setField_next (h : Heap) (a : Addr) (k : String) (v : HVal) :
    (h.setField a k v).next = h.next := by
  unfold Heap.setField
  cases h.mem a <;> rfl

theorem Heap.setField_mem_ne (h : Heap) (a : Addr) (k : String) (v : HVal) (x : Addr)
    (hx : x ≠ a) : (h.setField a k v).mem x = h.mem x := by
  unfold Heap.setField
  cases h.mem a with
  | none => rfl
  | some o => exact Heap.write_mem_ne h a _ x hx

theorem Heap.getField_setField_self (h : Heap) (a : Addr) (k : String) (v : HVal)
    (hmem : (h.mem a).isSome = true) : (h.setField a k v).getField a k = some v := by
  unfold Heap.setField Heap.getField
  obtain ⟨o, ho⟩ := Option.isSome_iff_exists.mp hmem
  rw [ho]
  simp only [Heap.write_mem_self, Option.bind]
  exact assocLookup_assocSet_self o k v

theorem Heap.getField_setField_ne (h : Heap) (a : Addr) (k k2 : String) (v : HVal)
    (hk : k2 ≠ k) : (h.setField a k v).getField a k2 = h.getField a k2 := by
  unfold Heap.setField Heap.getField
  cases ho : h.mem a with
  | none => rw [ho]
  | some o =>
    simp only [Heap.write_mem_self, Option.some_bind]
    exact assocLookup_assocSet_ne o k k2 v hk

theorem Heap.delField_next (h : Heap) (a : Addr) (k : String) :
    (h.delField a k).next = h.next := by
  unfold Heap.delField
  cases h.mem a <;> rfl

theorem Heap.delField_mem_ne (h : Heap) (a : Addr) (k : String) (x : Addr) (hx : x ≠ a) :
    (h.delField a k).mem x = h.mem x := by
  unfold Heap.delField
  cases h.mem a with
  | none => rfl
  | some o => exact Heap.write_mem_ne h a _ x hx

theorem Heap.getField_delField_self (h : Heap) (a : Addr) (k : String) :
    (h.delField a k).getField a k = none := by
  unfold Heap.delField Heap.getField
  cases ho : h.mem a with
  | none => rw [ho]; rfl
  | some o =>
    simp only [Heap.write_mem_self, Option.some_bind]
    exact assocLookup_assocDel_self o k

theorem Heap.getField_some_mem (h : Heap) (a : Addr) (k : String) (w : HVal)
    (hw : h.getField a k = some w) : ∃ o, h.mem a = some o ∧ (k, w) ∈ o := by
  unfold Heap.getField at hw
  cases ho : h.mem a with
  | none => rw [ho] at hw; cases hw
  | some o =>
    rw [ho] at hw
    exact ⟨o, rfl, assocLookup_mem o k w hw⟩

theorem targetBelow_of_closed (h : Heap) (n : Nat) (hcl : ClosedBelow h n) (a : Addr)
    (ha : a < n) (k : String) (w : HVal) (hw : h.getField a k = some w) : TargetBelow w n := by
  intro b hb
  obtain ⟨o, ho, hmem⟩ := Heap.getField_some_mem h a k w hw
  exact hcl a o ho ha (k, w) hmem b hb

theorem getPathH_agree_closed (n : Nat) (h h' : Heap)
    (hagree : ∀ a, a < n → h'.mem a = h.mem a) (hcl : ClosedBelow h n) :
    ∀ (q : List String) (w : HVal), TargetBelow w n → getPathH h' q w = getPathH h q w := by
  intro q
  induction q with
  | nil => intro w _; rfl
  | cons k q' ih =>
    intro w htb
    cases w with
    | hobj b =>
      have hb : b < n := htb b rfl
      have hf : h'.getField b k = h.getField b k := by
        unfold Heap.getField
        rw [hagree b hb]
      show (match h'.getField b k with
            | some w2 => getPathH h' q' w2
            | none => none)
          = (match h.getField b k with
            | some w2 => getPathH h q' w2
            | none => none)
      rw [hf]
      cases hw2 : h.getField b k with
      | none => rfl
      | some w2 => exact ih w2 (targetBelow_of_closed h n hcl b hb k w2 hw2)
    | hnum m => rfl
    | hstr s => rfl
    | hbool bb => rfl
    | hnull => rfl
    | hundef => rfl
    | harr xs => rfl

theorem walkChain_agree_closed (n : Nat) (h h' : Heap)
    (hagree : ∀ a, a < n → h'.mem a = h.mem a) (hcl : ClosedBelow h n) :
    ∀ (q : List String) (cur : Addr), cur < n → walkChain h' q cur = walkChain h q cur := by
  intro q
  induction q with
  | nil => intro cur _; rfl
  | cons k q' ih =>
    intro cur hcur
    have hf : h'.getField cur k = h.getField cur k := by
      unfold Heap.getField
      rw [hagree cur hcur]
    show (match h'.getField cur k with
          | some (.hobj b) => (walkChain h' q' b).map (fun l => cur :: l)
          | _ => none)
        = (match h.getField cur k with
          | some (.hobj b) => (walkChain h q' b).map (fun l => cur :: l)
          | _ => none)
    rw [hf]
    cases hw : h.getField cur k with
    | none => rfl
    | some w =>
      cases w with
      | hobj b =>
        have hb : b < n := targetBelow_of_closed h n hcl cur hcur k _ hw b rfl
        dsimp only
        rw [ih b hb]
      | hnum m => rfl
      | hstr s => rfl
      | hbool bb => rfl
      | hnull => rfl
      | hundef => rfl
      | harr xs => rfl

theorem walkChain_head (h : Heap) :
    ∀ (q : List String) (cur : Addr) (l : List Addr), walkChain h q cur = some l →
      ∃ t, l = cur :: t := by
  intro q
  cases q with
  | nil => intro cur l hl; cases hl; exact ⟨[], rfl⟩
  | cons k q' =>
    intro cur l hl
    unfold walkChain at hl
    cases hw : h.getField cur k with
    | none => rw [hw] at hl; cases hl
    | some w =>
      rw [hw] at hl
      cases w with
      | hobj b =>
        dsimp only at hl
        cases hc : walkChain h q' b with
        | none => rw [hc] at hl; cases hl
        | some t =>
          rw [hc] at hl
          simp only [Option.map_some'] at hl
          exact ⟨t, (Option.some_inj.mp hl).symm⟩
      | hnum m => cases hl
      | hstr s => cases hl
      | hbool bb => cases hl
      | hnull => cases hl
      | hundef => cases hl
      | harr xs => cases hl

theorem walkChain_copy (n : Nat) (h h' : Heap)
    (hagree : ∀ x, x < n → h'.mem x = h.mem x) (hcl : ClosedBelow h n) :
    ∀ (q : List String) (a c : Addr) (t : List Addr), a < n →
      h'.mem c = some ((h.mem a).getD []) →
      walkChain h q a = some (a :: t) → walkChain h' q c = some (c :: t) := by
  intro q
  cases q with
  | nil =>
    intro a c t _ _ hw
    cases hw
    rfl
  | cons k q' =>
    intro a c t ha hc hw
    unfold walkChain at hw ⊢
    have hfc : h'.getField c k = h.getField a k := by
      unfold Heap.getField
      rw [hc]
      cases ho : h.mem a with
      | none => simp [ho, assocLookup, List.find?]
      | some o => simp [ho]
    rw [hfc]
    cases hg : h.getField a k with
    | none => rw [hg] at hw; cases hw
    | some w =>
      rw [hg] at hw
      cases w with
      | hobj b =>
        have hb : b < n := targetBelow_of_closed h n hcl a ha k _ hg b rfl
        dsimp only at hw ⊢
        rw [walkChain_agree_closed n h h' hagree hcl q' b hb]
        cases hcb : walkChain h q' b with
        | none => rw [hcb] at hw; cases hw
        | some l =>
          rw [hcb] at hw
          simp only [Option.map_some'] at hw ⊢
          have hlt : l = t := by
            have h2 := Option.some_inj.mp hw
            injection h2
          rw [hlt]
      | hnum m => cases hw
      | hstr s => cases hw
      | hbool bb => cases hw
      | hnull => cases hw
      | hundef => cases hw
      | harr xs => cases hw

theorem getPathH_copy (n : Nat) (h h' : Heap)
    (hagree : ∀ x, x < n → h'.mem x = h.mem x) (hcl : ClosedBelow h n)
    (a c : Addr) (ha : a < n) (hc : h'.mem c = some ((h.mem a).getD [])) :
    ∀ (q : List String), q ≠ [] →
      getPathH h' q (.hobj c) = getPathH h q (.hobj a) := by
  intro q hq
  cases q with
  | nil => exact absurd rfl hq
  | cons k q' =>
    have hfc : h'.getField c k = h.getField a k := by
      unfold Heap.getField
      rw [hc]
      cases ho : h.mem a with
      | none => simp [ho, assocLookup, List.find?]
      | some o => simp [ho]
    show (match h'.getField c k with
          | some w => getPathH h' q' w
          | none => none)
        = (match h.getField a k with
          | some w => getPathH h q' w
          | none => none)
    rw [hfc]
    cases hg : h.getField a k with
    | none => rfl
    | some w =>
      exact getPathH_agree_closed n h h' hagree hcl q' w
        (targetBelow_of_closed h n hcl a ha k w hg)

-- ===================== C7: copy-on-write nested setter =====================

theorem nsWrite_main :
    ∀ (p : List String) (n0 : Nat) (h : Heap) (c : Addr) (v : HVal) (ch : List Addr),
      p ≠ [] →
      n0 ≤ c → c < h.next →
      (h.mem c).isSome = true →
      ClosedBelow h n0 →
      (∀ kv ∈ (h.mem c).getD [], ∀ b, kv.2 = HVal.hobj b → b < n0) →
      walkChain h p.dropLast c = some (c :: ch) →
      (getPathH (nsWrite h c p v) p (.hobj c) = some v)
      ∧ (∃ ch', walkChain (nsWrite h c p v) p.dropLast c = some (c :: ch')
            ∧ ∀ x ∈ ch', h.next ≤ x)
      ∧ (∀ a, a < h.next → a ≠ c → (nsWrite h c p v).mem a = h.mem a)
      ∧ (h.next ≤ (nsWrite h c p v).next)
      ∧ (∀ q : List String, q ≠ [] → p.isPrefixOf q = false → q.isPrefixOf p = false →
           getPathH (nsWrite h c p v) q (.hobj c) = getPathH h q (.hobj c)) := by
  intro p
  induction p with
  | nil => intro n0 h c v ch hp; exact absurd rfl hp
  | cons k rest ih =>
    intro n0 h c v ch _ hn0c hclt hmem hcl hfields hchain
    cases rest with
    | nil =>
      -- base case: p = [k]; nsWrite is a single field assignment on the copy
      have hw : nsWrite h c [k] v = h.setField c k v := rfl
      have hagree : ∀ x, x < n0 → (h.setField c k v).mem x = h.mem x := by
        intro x hx
        exact Heap.setField_mem_ne h c k v x (fun hxc => absurd (hxc ▸ hx) (not_lt.mpr hn0c))
      refine ⟨?_, ⟨[], rfl, by intro x hx; cases hx⟩, ?_, ?_, ?_⟩
      · show (match (h.setField c k v).getField c k with
              | some w => getPathH (h.setField c k v) [] w
              | none => none) = some v
        rw [Heap.getField_setField_self h c k v hmem]
        rfl
      · intro a _ hac
        rw [hw]
        exact Heap.setField_mem_ne h c k v a hac
      · rw [hw, Heap.setField_next]
      · intro q hq hq1 _
        cases q with
        | nil => exact absurd rfl hq
        | cons k1 q1 =>
          by_cases hk : k1 = k
          · subst hk
            have : ([k1].isPrefixOf (k1 :: q1)) = true := by simp [List.isPrefixOf]
            rw [this] at hq1
            cases hq1
          · have hne : k1 ≠ k := hk
            show (match (h.setField c k v).getField c k1 with
                  | some w => getPathH (h.setField c k v) q1 w
                  | none => none)
                = (match h.getField c k1 with
                  | some w => getPathH h q1 w
                  | none => none)
            rw [Heap.getField_setField_ne h c k k1 v hne]
            cases hg : h.getField c k1 with
            | none => rfl
            | some w =>
              refine getPathH_agree_closed n0 h _ hagree hcl q1 w ?_
              intro b hb
              obtain ⟨o, ho, hmo⟩ := Heap.getField_some_mem h c k1 w hg
              exact hfields (k1, w) (by rw [ho]; exact hmo) b hb
    | cons r0 rs =>
      -- inductive case: copy the next ancestor and recurse into the copy
      have hdrop : (k :: r0 :: rs).dropLast = k :: (r0 :: rs).dropLast := rfl
      rw [hdrop] at hchain
      -- extract the first chain step
      have hstep : ∃ a1 ch1, h.getField c k = some (.hobj a1)
          ∧ walkChain h (r0 :: rs).dropLast a1 = some (a1 :: ch1) ∧ ch = a1 :: ch1 := by
        unfold walkChain at hchain
        cases hg : h.getField c k with
        | none => rw [hg] at hchain; cases hchain
        | some w =>
          rw [hg] at hchain
          cases w with
          | hobj a1 =>
            dsimp only at hchain
            cases hwc : walkChain h (r0 :: rs).dropLast a1 with
            | none => rw [hwc] at hchain; cases hchain
            | some l =>
              rw [hwc] at hchain
              simp only [Option.map_some'] at hchain
              obtain ⟨t, ht⟩ := walkChain_head h _ a1 l hwc
              have hl := Option.some_inj.mp hchain
              have hch : ch = l := by
                injection hl with e1 e2
                exact e2.symm
              exact ⟨a1, t, rfl, ht ▸ hwc, by rw [hch, ht]⟩
          | hnum m => cases hchain
          | hstr s => cases hchain
          | hbool bb => cases hchain
          | hnull => cases hchain
          | hundef => cases hchain
          | harr xs => cases hchain
      obtain ⟨a1, ch1, hg, hwc1, hche⟩ := hstep
      have ha1 : a1 < n0 := by
        obtain ⟨o, ho, hmo⟩ := Heap.getField_some_mem h c k _ hg
        exact hfields (k, .hobj a1) (by rw [ho]; exact hmo) a1 rfl
      -- names for the intermediate heaps of the loop body
      have hwdef : nsWrite h c (k :: r0 :: rs) v
          = nsWrite ((h.alloc (spreadFields h ((h.getField c k).getD .hundef))).1.setField c k
              (.hobj (h.alloc (spreadFields h ((h.getField c k).getD .hundef))).2))
            (h.alloc (spreadFields h ((h.getField c k).getD .hundef))).2 (r0 :: rs) v := rfl
      rw [hg] at hwdef
      have hinner : spreadFields h ((some (HVal.hobj a1)).getD .hundef) = (h.mem a1).getD [] := rfl
      rw [hinner] at hwdef
      set cP := (h.alloc ((h.mem a1).getD [])).2 with hcP
      set h1 := (h.alloc ((h.mem a1).getD [])).1 with hh1
      set h2 := h1.setField c k (.hobj cP) with hh2
      have hcPe : cP = h.next := rfl
      have h1next : h1.next = h.next + 1 := rfl
      have h2next : h2.next = h.next + 1 := by rw [hh2, Heap.setField_next, h1next]
      have hccP : c ≠ cP := by rw [hcPe]; exact Nat.ne_of_lt hclt
      have h2memcP : h2.mem cP = some ((h.mem a1).getD []) := by
        rw [hh2, Heap.setField_mem_ne h1 c k _ cP (Ne.symm hccP), hh1, hcPe]
        exact Heap.alloc_mem_self h _
      have hagree2 : ∀ x, x < n0 → h2.mem x = h.mem x := by
        intro x hx
        have hxc : x ≠ c := fun hxc => absurd (hxc ▸ hx) (not_lt.mpr hn0c)
        have hxP : x ≠ cP := by
          rw [hcPe]; exact Nat.ne_of_lt (lt_of_lt_of_le hx (le_trans hn0c (le_of_lt hclt)))
        rw [hh2, Heap.setField_mem_ne h1 c k _ x hxc, hh1,
          Heap.alloc_mem_ne h _ x (hcPe ▸ hxP)]
      have hcl2 : ClosedBelow h2 n0 := by
        intro a o hao han kv hkv b hb
        rw [hagree2 a han] at hao
        exact hcl a o hao han kv hkv b hb
      have hfields2 : ∀ kv ∈ (h2.mem cP).getD [], ∀ b, kv.2 = HVal.hobj b → b < n0 := by
        rw [h2memcP]
        intro kv hkv b hb
        cases ho : h.mem a1 with
        | none => rw [ho] at hkv; cases hkv
        | some o =>
          rw [ho] at hkv
          exact hcl a1 o ho ha1 kv hkv b hb
      have hchain2 : walkChain h2 (r0 :: rs).dropLast cP = some (cP :: ch1) :=
        walkChain_copy n0 h h2 hagree2 hcl _ a1 cP ch1 ha1 h2memcP hwc1
      have hmem2 : (h2.mem cP).isSome = true := by rw [h2memcP]; rfl
      obtain ⟨ih1, ⟨ch', ihch, ihfresh⟩, ih3, ih4, ih5⟩ :=
        ih n0 h2 cP v ch1 (by simp) (le_trans hn0c (le_of_lt (hcPe ▸ hclt)))
          (by rw [h2next, hcPe]; exact Nat.lt_succ_self _) hmem2 hcl2 hfields2 hchain2
      rw [hwdef]
      -- the copied parent keeps its reassigned field in the final heap
      have hcmem : (nsWrite h2 cP (r0 :: rs) v).mem c = h2.mem c := by
        refine ih3 c ?_ hccP
        rw [h2next]; exact Nat.lt_succ_of_lt hclt
      have hgc : (nsWrite h2 cP (r0 :: rs) v).getField c k = some (.hobj cP) := by
        unfold Heap.getField
        rw [hcmem]
        have : h2.getField c k = some (.hobj cP) := by
          rw [hh2]
          refine Heap.getField_setField_self h1 c k _ ?_
          rw [hh1, Heap.alloc_mem_ne h _ c (Nat.ne_of_lt hclt)]
          exact hmem
        unfold Heap.getField at this
        exact this
      have hgcne : ∀ k1, k1 ≠ k → (nsWrite h2 cP (r0 :: rs) v).getField c k1 = h.getField c k1 := by
        intro k1 hk1
        unfold Heap.getField
        rw [hcmem, hh2]
        have : (h1.setField c k (.hobj cP)).getField c k1 = h1.getField c k1 :=
          Heap.getField_setField_ne h1 c k k1 _ hk1
        unfold Heap.getField at this
        rw [this, hh1, Heap.alloc_mem_ne h _ c (Nat.ne_of_lt hclt)]
      refine ⟨?_, ⟨cP :: ch', ?_, ?_⟩, ?_, ?_, ?_⟩
      · -- (1) the final key holds the new value
        show (match (nsWrite h2 cP (r0 :: rs) v).getField c k with
              | some w => getPathH (nsWrite h2 cP (r0 :: rs) v) (r0 :: rs) w
              | none => none) = some v
        rw [hgc]
        exact ih1
      · -- (2) chain of fresh copies
        show (match (nsWrite h2 cP (r0 :: rs) v).getField c k with
              | some (.hobj b) =>
                (walkChain (nsWrite h2 cP (r0 :: rs) v) (r0 :: rs).dropLast b).map
                  (fun l => c :: l)
              | _ => none) = some (c :: cP :: ch')
        rw [hgc]
        dsimp only
        rw [ihch]
        rfl
      · intro x hx
        rcases List.mem_cons.mp hx with hx | hx
        · rw [hx, hcPe]
        · have hxf := ihfresh x hx
          rw [h2next] at hxf
          exact le_trans (Nat.le_succ _) hxf
      · -- (3) frame over the original heap
        intro a ha hac
        have haP : a ≠ cP := by rw [hcPe]; exact Nat.ne_of_lt ha
        rw [ih3 a (by rw [h2next]; exact Nat.lt_succ_of_lt ha) haP, hh2,
          Heap.setField_mem_ne h1 c k _ a hac, hh1,
          Heap.alloc_mem_ne h _ a (Nat.ne_of_lt ha)]
      · -- (4) the allocation bound grows
        have h4 := ih4
        rw [h2next] at h4
        exact le_trans (Nat.le_succ _) h4
      · -- (5) every location off the path keeps its original value and reference
        intro q hq hq1 hq2
        have hagreeF : ∀ x, x < n0 → (nsWrite h2 cP (r0 :: rs) v).mem x = h.mem x := by
          intro x hx
          have hxlt : x < h.next := lt_of_lt_of_le hx (le_trans hn0c (le_of_lt hclt))
          have hxP : x ≠ cP := by rw [hcPe]; exact Nat.ne_of_lt hxlt
          rw [ih3 x (by rw [h2next]; exact Nat.lt_succ_of_lt hxlt) hxP, hagree2 x hx]
        cases q with
        | nil => exact absurd rfl hq
        | cons k1 q1 =>
          by_cases hk : k1 = k
          · subst hk
            have hq1ne : q1 ≠ [] := by
              intro hq10
              subst hq10
              have : ([k1].isPrefixOf (k1 :: r0 :: rs)) = true := by simp [List.isPrefixOf]
              rw [this] at hq2
              cases hq2
            have hpq : ((k1 :: r0 :: rs).isPrefixOf (k1 :: q1)) = ((r0 :: rs).isPrefixOf q1) := by
              simp [List.isPrefixOf]
            have hqp : ((k1 :: q1).isPrefixOf (k1 :: r0 :: rs)) = (q1.isPrefixOf (r0 :: rs)) := by
              simp [List.isPrefixOf]
            rw [hpq] at hq1
            rw [hqp] at hq2
            show (match (nsWrite h2 cP (r0 :: rs) v).getField c k1 with
                  | some w => getPathH (nsWrite h2 cP (r0 :: rs) v) q1 w
                  | none => none)
                = (match h.getField c k1 with
                  | some w => getPathH h q1 w
                  | none => none)
            rw [hgc, hg]
            dsimp only
            rw [ih5 q1 hq1ne hq1 hq2]
            exact getPathH_copy n0 h h2 hagree2 hcl a1 cP ha1 h2memcP q1 hq1ne
          · show (match (nsWrite h2 cP (r0 :: rs) v).getField c k1 with
                  | some w => getPathH (nsWrite h2 cP (r0 :: rs) v) q1 w
                  | none => none)
                = (match h.getField c k1 with
                  | some w => getPathH h q1 w
                  | none => none)
            rw [hgcne k1 hk]
            cases hgv : h.getField c k1 with
            | none => rfl
            | some w =>
              refine getPathH_agree_closed n0 h _ hagreeF hcl q1 w ?_
              intro b hb
              obtain ⟨o, ho, hmo⟩ := Heap.getField_some_mem h c k1 w hgv
              exact hfields (k1, w) (by rw [ho]; exact hmo) b hb

/-- C7: for every state object and every valid nested path in it (intermediate
steps resolve to objects), the copy-on-write update of `nestedSetterFactory`
produces a new state in which the path's final key holds the new value, every
ancestor along the path is a freshly allocated shallow copy (an address at or
above the old allocation bound), every previously allocated object is
untouched, and every location off the path — siblings under the copied
ancestors included — reads back the same value (the same reference, for
object values) as in the original state. -/
theorem c7_nested_setter (h : Heap) (r : Addr) (p : List String) (v : HVal) (ch : List Addr)
    (hp : p ≠ [])
    (hclosed : ClosedBelow h h.next)
    (hr : r < h.next)
    (hchain : walkChain h p.dropLast r = some (r :: ch)) :
    ∃ h' c, nestedSetterFactory h (.hobj r) p v = (h', .hobj c)
      ∧ h.next ≤ c
      ∧ getPathH h' p (.hobj c) = some v
      ∧ (∃ ch', walkChain h' p.dropLast c = some (c :: ch') ∧ ∀ x ∈ c :: ch', h.next ≤ x)
      ∧ (∀ a, a < h.next → h'.mem a = h.mem a)
      ∧ (∀ q, q ≠ [] → p.isPrefixOf q = false → q.isPrefixOf p = false →
          getPathH h' q (.hobj c) = getPathH h q (.hobj r)) := by
  have hsp : spreadFields h (.hobj r) = (h.mem r).getD [] := rfl
  set c := (h.alloc ((h.mem r).getD [])).2 with hcdef
  set h1 := (h.alloc ((h.mem r).getD [])).1 with hh1
  have hce : c = h.next := rfl
  have h1next : h1.next = h.next + 1 := rfl
  have h1memc : h1.mem c = some ((h.mem r).getD []) := by
    rw [hh1, hce]
    exact Heap.alloc_mem_self h _
  have hagree1 : ∀ x, x < h.next → h1.mem x = h.mem x := by
    intro x hx
    rw [hh1]
    exact Heap.alloc_mem_ne h _ x (Nat.ne_of_lt hx)
  have hcl1 : ClosedBelow h1 h.next := by
    intro a o hao han kv hkv b hb
    rw [hagree1 a han] at hao
    exact hclosed a o hao han kv hkv b hb
  have hfields1 : ∀ kv ∈ (h1.mem c).getD [], ∀ b, kv.2 = HVal.hobj b → b < h.next := by
    rw [h1memc]
    intro kv hkv b hb
    cases ho : h.mem r with
    | none => rw [ho] at hkv; cases hkv
    | some o =>
      rw [ho] at hkv
      exact hclosed r o ho hr kv hkv b hb
  have hchain1 : walkChain h1 p.dropLast c = some (c :: ch) :=
    walkChain_copy h.next h h1 hagree1 hclosed _ r c ch hr h1memc hchain
  obtain ⟨m1, ⟨ch', mch, mfresh⟩, m3, _, m5⟩ :=
    nsWrite_main p h.next h1 c v ch hp (le_of_eq hce.symm)
      (by rw [h1next, hce]; exact Nat.lt_succ_self _)
      (by rw [h1memc]; rfl) hcl1 hfields1 hchain1
  refine ⟨nsWrite h1 c p v, c, rfl, le_of_eq hce.symm, m1, ⟨ch', mch, ?_⟩, ?_, ?_⟩
  · intro x hx
    rcases List.mem_cons.mp hx with hx | hx
    · rw [hx, hce]
    · have := mfresh x hx
      rw [h1next] at this
      exact le_trans (Nat.le_succ _) this
  · intro a ha
    rw [m3 a (by rw [h1next]; exact Nat.lt_succ_of_lt ha) (by rw [hce]; exact Nat.ne_of_lt ha),
      hagree1 a ha]
  · intro q hq hq1 hq2
    rw [m5 q hq hq1 hq2]
    exact getPathH_copy h.next h h1 hagree1 hclosed r c hr h1memc q hq

/-- C7 witness: scenario C with a sibling — state `{nested: {v: "x", w: "s"}}`,
setting path `nested.v` to `"y"`. -/
theorem c7_witness :
    ∃ h' c, nestedSetterFactory c7h (.hobj 0) ["nested", "v"] (.hstr "y") = (h', .hobj c)
      ∧ c7h.next ≤ c
      ∧ getPathH h' ["nested", "v"] (.hobj c) = some (.hstr "y")
      ∧ (∃ ch', walkChain h' ["nested", "v"].dropLast c = some (c :: ch')
          ∧ ∀ x ∈ c :: ch', c7h.next ≤ x)
      ∧ (∀ a, a < c7h.next → h'.mem a = c7h.mem a)
      ∧ (∀ q, q ≠ [] → (["nested", "v"] : List String).isPrefixOf q = false →
          q.isPrefixOf ["nested", "v"] = false →
          getPathH h' q (.hobj c) = getPathH c7h q (.hobj 0)) :=
  c7_nested_setter c7h 0 ["nested", "v"] (.hstr "y") [1]
    (by simp)
    (by
      intro a o hao ha kv hkv b hb
      by_cases h0 : a = 0
      · subst h0
        have ho : o = [("nested", HVal.hobj 1)] := by
          have : c7h.mem 0 = some [("nested", HVal.hobj 1)] := rfl
          rw [this] at hao
          exact (Option.some_inj.mp hao).symm
        subst ho
        have hkv2 : kv = ("nested", HVal.hobj 1) := List.mem_singleton.mp hkv
        rw [hkv2] at hb
        have : b = 1 := by
          injection hb.symm
        rw [this]
        exact (by decide : (1 : Nat) < 2)
      · by_cases h1 : a = 1
        · subst h1
          have ho : o = [("v", HVal.hstr "x"), ("w", HVal.hstr "s")] := by
            have : c7h.mem 1 = some [("v", HVal.hstr "x"), ("w", HVal.hstr "s")] := rfl
            rw [this] at hao
            exact (Option.some_inj.mp hao).symm
          subst ho
          rcases List.mem_cons.mp hkv with hkv2 | hkv2
          · rw [hkv2] at hb; cases hb
          · rw [List.mem_singleton.mp hkv2] at hb; cases hb
        · have : c7h.mem a = none := by
            show (if a = 0 then _ else if a = 1 then _ else none) = none
            rw [if_neg h0, if_neg h1]
          rw [this] at hao
          cases hao)
    (by decide)
    rfl

-- ===================== C9: redaction mutates shared nested objects =====================

theorem cleanWalk_deletes (h : Heap) :
    ∀ (ks : List String) (cur : Addr) (ch : List Addr) (k : String),
      walkChain h ks cur = some (cur :: ch) →
      cleanWalk h (ks ++ [k]) (.hobj cur)
        = (h.delField ((cur :: ch).getLast (List.cons_ne_nil _ _)) k, false) := by
  intro ks
  induction ks with
  | nil =>
    intro cur ch k hw
    have hch : ch = [] := by
      have := Option.some_inj.mp hw
      injection this with e1 e2
      exact e2.symm
    subst hch
    rfl
  | cons k2 ks' ih =>
    intro cur ch k hw
    unfold walkChain at hw
    cases hg : h.getField cur k2 with
    | none => rw [hg] at hw; cases hw
    | some w =>
      rw [hg] at hw
      cases w with
      | hobj b =>
        dsimp only at hw
        cases hwc : walkChain h ks' b with
        | none => rw [hwc] at hw; cases hw
        | some l =>
          rw [hwc] at hw
          simp only [Option.map_some'] at hw
          obtain ⟨t, ht⟩ := walkChain_head h ks' b l hwc
          subst ht
          have hch : ch = b :: t := by
            have := Option.some_inj.mp hw
            injection this with e1 e2
            exact e2.symm
          subst hch
          obtain ⟨t0, ts, hts⟩ : ∃ t0 ts, ks' ++ [k] = t0 :: ts := by
            cases hks : ks' ++ [k] with
            | nil => exact absurd hks (by simp)
            | cons t0 ts => exact ⟨t0, ts, rfl⟩
          have hred : cleanWalk h ((k2 :: ks') ++ [k]) (.hobj cur)
              = cleanWalk h (ks' ++ [k]) ((h.getField cur k2).getD .hundef) := by
            rw [List.cons_append, hts]
            rfl
          have hgl : ((cur :: b :: t).getLast (List.cons_ne_nil _ _))
              = ((b :: t).getLast (List.cons_ne_nil _ _)) :=
            List.getLast_cons (List.cons_ne_nil _ _)
          rw [hred, hg, hgl]
          exact ih b t k hwc
      | hnum m => cases hw
      | hstr s => cases hw
      | hbool bb => cases hw
      | hnull => cases hw
      | hundef => cases hw
      | harr xs => cases hw

theorem deletedWalkNone (h : Heap) :
    ∀ (ks : List String) (cur : Addr) (ch : List Addr) (b : Addr) (k : String),
      walkChain h ks cur = some (cur :: ch) →
      (cur :: ch).Nodup →
      b = (cur :: ch).getLast (List.cons_ne_nil _ _) →
      getPathH (h.delField b k) (ks ++ [k]) (.hobj cur) = none := by
  intro ks
  induction ks with
  | nil =>
    intro cur ch b k hw _ hb
    have hch : ch = [] := by
      have := Option.some_inj.mp hw
      injection this with e1 e2
      exact e2.symm
    subst hch
    have hbe : b = cur := hb
    subst hbe
    show (match (h.delField b k).getField b k with
          | some w => getPathH (h.delField b k) [] w
          | none => none) = none
    rw [Heap.getField_delField_self]
  | cons k2 ks' ih =>
    intro cur ch b k hw hnd hb
    unfold walkChain at hw
    cases hg : h.getField cur k2 with
    | none => rw [hg] at hw; cases hw
    | some w =>
      rw [hg] at hw
      cases w with
      | hobj b2 =>
        dsimp only at hw
        cases hwc : walkChain h ks' b2 with
        | none => rw [hwc] at hw; cases hw
        | some l =>
          rw [hwc] at hw
          simp only [Option.map_some'] at hw
          obtain ⟨t, ht⟩ := walkChain_head h ks' b2 l hwc
          subst ht
          have hch : ch = b2 :: t := by
            have := Option.some_inj.mp hw
            injection this with e1 e2
            exact e2.symm
          subst hch
          have hnotmem : cur ∉ b2 :: t := (List.nodup_cons.mp hnd).1
          have hbmem : b ∈ b2 :: t := by
            rw [hb, List.getLast_cons (List.cons_ne_nil _ _)]
            exact List.getLast_mem _
          have hcb : cur ≠ b := fun hcon => hnotmem (hcon ▸ hbmem)
          show (match (h.delField b k).getField cur k2 with
                | some w => getPathH (h.delField b k) (ks' ++ [k]) w
                | none => none) = none
          have hgf : (h.delField b k).getField cur k2 = h.getField cur k2 := by
            unfold Heap.getField
            rw [Heap.delField_mem_ne h b k cur hcb]
          rw [hgf, hg]
          exact ih b2 t b k hwc (List.nodup_cons.mp hnd).2
            (by rw [hb, List.getLast_cons (List.cons_ne_nil _ _)])
      | hnum m => cases hw
      | hstr s => cases hw
      | hbool bb => cases hw
      | hnull => cases hw
      | hundef => cases hw
      | harr xs => cases hw

/-- C9: for a private entry given as a nested path (length at least 2) whose
intermediate keys exist, `cleanState` deletes through objects shared by
reference between the returned copy and the input: afterwards the input state
itself no longer contains the nested entry (the final key is gone from the
shared object the path reaches).  Only top-level string entries and length-1
path entries leave every previously allocated object — the input state
included — unchanged, the deletion then affecting only the fresh shallow
copy. -/
theorem c9_cleanState_mutates_input (h : Heap) (r : Addr) (ks : List String) (k : String)
    (ch : List Addr)
    (hks : ks ≠ [])
    (hclosed : ClosedBelow h h.next)
    (hr : r < h.next)
    (hchain : walkChain h ks r = some (r :: ch))
    (hnodup : (r :: ch).Nodup) :
    (getPathH (cleanState h (.hobj r) [PEntry.path (ks ++ [k])]).1 (ks ++ [k]) (.hobj r) = none
      ∧ ∀ hne : ch ≠ [],
          (cleanState h (.hobj r) [PEntry.path (ks ++ [k])]).1.getField (ch.getLast hne) k
            = none)
    ∧ (∀ k2 a, a < h.next → (cleanState h (.hobj r) [PEntry.key k2]).1.mem a = h.mem a)
    ∧ (∀ k2 a, a < h.next → (cleanState h (.hobj r) [PEntry.path [k2]]).1.mem a = h.mem a) := by
  set c := (h.alloc ((h.mem r).getD [])).2 with hcdef
  set h1 := (h.alloc ((h.mem r).getD [])).1 with hh1
  have hce : c = h.next := rfl
  have h1memc : h1.mem c = some ((h.mem r).getD []) := by
    rw [hh1, hce]
    exact Heap.alloc_mem_self h _
  have hagree1 : ∀ x, x < h.next → h1.mem x = h.mem x := by
    intro x hx
    rw [hh1]
    exact Heap.alloc_mem_ne h _ x (Nat.ne_of_lt hx)
  have hchainC : walkChain h1 ks c = some (c :: ch) :=
    walkChain_copy h.next h h1 hagree1 hclosed ks r c ch hr h1memc hchain
  have hchain1 : walkChain h1 ks r = some (r :: ch) := by
    rw [walkChain_agree_closed h.next h h1 hagree1 hclosed ks r hr]
    exact hchain
  have hheap : (cleanState h (.hobj r) [PEntry.path (ks ++ [k])]).1
      = h1.delField ((c :: ch).getLast (List.cons_ne_nil _ _)) k := by
    show (cleanWalk h1 (ks ++ [k]) (.hobj c)).1 = _
    rw [cleanWalk_deletes h1 ks c ch k hchainC]
  have hchne : ch ≠ [] := by
    intro hch0
    subst hch0
    cases ks with
    | nil => exact hks rfl
    | cons k0 ks0 =>
      unfold walkChain at hchain
      cases hg : h.getField r k0 with
      | none => rw [hg] at hchain; cases hchain
      | some w =>
        rw [hg] at hchain
        cases w with
        | hobj b =>
          dsimp only at hchain
          cases hwc : walkChain h ks0 b with
          | none => rw [hwc] at hchain; cases hchain
          | some l =>
            rw [hwc] at hchain
            simp only [Option.map_some'] at hchain
            obtain ⟨t, ht⟩ := walkChain_head h ks0 b l hwc
            have := Option.some_inj.mp hchain
            rw [ht] at this
            injection this with e1 e2
            cases e2
        | hnum m => cases hchain
        | hstr s => cases hchain
        | hbool bb => cases hchain
        | hnull => cases hchain
        | hundef => cases hchain
        | harr xs => cases hchain
  have hgl : ((c :: ch).getLast (List.cons_ne_nil _ _)) = ch.getLast hchne :=
    List.getLast_cons hchne
  have hglr : ((r :: ch).getLast (List.cons_ne_nil _ _)) = ch.getLast hchne :=
    List.getLast_cons hchne
  refine ⟨⟨?_, ?_⟩, ?_, ?_⟩
  · rw [hheap, hgl]
    exact deletedWalkNone h1 ks r ch (ch.getLast hchne) k hchain1 hnodup hglr.symm
  · intro hne
    rw [hheap, hgl]
    exact Heap.getField_delField_self _ _ k
  · intro k2 a ha
    show (h1.delField c k2).mem a = h.mem a
    rw [Heap.delField_mem_ne h1 c k2 a (by rw [hce]; exact Nat.ne_of_lt ha), hagree1 a ha]
  · intro k2 a ha
    show (h1.delField c k2).mem a = h.mem a
    rw [Heap.delField_mem_ne h1 c k2 a (by rw [hce]; exact Nat.ne_of_lt ha), hagree1 a ha]

/-- C9 witness: state `{a: {secret: 5, keep: 6}}` with private path
`["a", "secret"]` — the nested deletion reaches the shared inner object. -/
theorem c9_witness :
    (getPathH (cleanState c9h (.hobj 0) [PEntry.path (["a"] ++ ["secret"])]).1
        (["a"] ++ ["secret"]) (.hobj 0) = none
      ∧ ∀ hne : ([1] : List Addr) ≠ [],
          (cleanState c9h (.hobj 0) [PEntry.path (["a"] ++ ["secret"])]).1.getField
            (([1] : List Addr).getLast hne) "secret" = none)
    ∧ (∀ k2 a, a < c9h.next → (cleanState c9h (.hobj 0) [PEntry.key k2]).1.mem a = c9h.mem a)
    ∧ (∀ k2 a, a < c9h.next →
        (cleanState c9h (.hobj 0) [PEntry.path [k2]]).1.mem a = c9h.mem a) :=
  c9_cleanState_mutates_input c9h 0 ["a"] "secret" [1]
    (by simp)
    (by
      intro a o hao ha kv hkv b hb
      by_cases h0 : a = 0
      · subst h0
        have ho : o = [("a", HVal.hobj 1)] := by
          have : c9h.mem 0 = some [("a", HVal.hobj 1)] := rfl
          rw [this] at hao
          exact (Option.some_inj.mp hao).symm
        subst ho
        have hkv2 : kv = ("a", HVal.hobj 1) := List.mem_singleton.mp hkv
        rw [hkv2] at hb
        have : b = 1 := by injection hb.symm
        rw [this]
        exact (by decide : (1 : Nat) < 2)
      · by_cases h1 : a = 1
        · subst h1
          have ho : o = [("secret", HVal.hnum 5), ("keep", HVal.hnum 6)] := by
            have : c9h.mem 1 = some [("secret", HVal.hnum 5), ("keep", HVal.hnum 6)] := rfl
            rw [this] at hao
            exact (Option.some_inj.mp hao).symm
          subst ho
          rcases List.mem_cons.mp hkv with hkv2 | hkv2
          · rw [hkv2] at hb; cases hb
          · rw [List.mem_singleton.mp hkv2] at hb; cases hb
        · have : c9h.mem a = none := by
            show (if a = 0 then _ else if a = 1 then _ else none) = none
            rw [if_neg h0, if_neg h1]
          rw [this] at hao
          cases hao)
    (by decide)
    rfl
    (by decide)

-- ===================== C6: path discovery =====================

theorem assocLookup_cons_self {α : Type} (k : String) (v : α) (l : List (String × α)) :
    assocLookup ((k, v) :: l) k = some v := by
  simp [assocLookup, List.find?]

theorem assocLookup_cons_ne {α : Type} (k0 : String) (v0 : α) (l : List (String × α))
    (k : String) (h : k ≠ k0) : assocLookup ((k0, v0) :: l) k = assocLookup l k := by
  unfold assocLookup
  rw [List.find?]
  have hd : (decide ((k0, v0).1 = k)) = false := decide_eq_false (Ne.symm h)
  rw [hd]

theorem assocLookup_append_not_mem {α : Type} (l : List (String × α)) :
    ∀ (pre : List (String × α)) (k : String), (∀ kv ∈ pre, kv.1 ≠ k) →
      assocLookup (pre ++ l) k = assocLookup l k := by
  intro pre
  induction pre with
  | nil => intro k _; rfl
  | cons hd tl ih =>
    intro k h
    obtain ⟨hk, hv⟩ := hd
    have hne : hk ≠ k := h (hk, hv) (List.mem_cons_self _ _)
    rw [List.cons_append, assocLookup_cons_ne hk hv _ k (Ne.symm hne)]
    exact ih k (fun kv hkv => h kv (List.mem_cons_of_mem _ hkv))

theorem keyIdx_isSome_of_mem (l : List (String × JVal)) (k : String)
    (h : k ∈ l.map (fun x => x.1)) : (keyIdx l k).isSome = true := by
  induction l with
  | nil => simp at h
  | cons hd tl ih =>
    obtain ⟨hk, hv⟩ := hd
    show (if hk = k then some 0 else (keyIdx tl k).map (fun i => i + 1)).isSome = true
    by_cases he : hk = k
    · rw [if_pos he]; rfl
    · rw [if_neg he]
      simp only [List.map_cons, List.mem_cons] at h
      rcases h with h | h
      · exact absurd h.symm he
      · rw [Option.isSome_map']
        exact ih h

theorem keyIdx_pre_cons_self (rest : List (String × JVal)) (k0 : String) (v0 : JVal) :
    ∀ (pre : List (String × JVal)), (∀ kv ∈ pre, kv.1 ≠ k0) →
      keyIdx (pre ++ (k0, v0) :: rest) k0 = some pre.length := by
  intro pre
  induction pre with
  | nil => simp [keyIdx]
  | cons hd tl ih =>
    intro h
    obtain ⟨hk, hv⟩ := hd
    have hne : hk ≠ k0 := h (hk, hv) (List.mem_cons_self _ _)
    show (if hk = k0 then some 0
          else (keyIdx (tl ++ (k0, v0) :: rest) k0).map (fun i => i + 1))
        = some (tl.length + 1)
    rw [if_neg hne, ih (fun kv hkv => h kv (List.mem_cons_of_mem _ hkv))]
    rfl

theorem keyIdx_pre_rest_gt (rest : List (String × JVal)) (k0 : String) (v0 : JVal)
    (kb : String) (hne : kb ≠ k0) (hmem : kb ∈ rest.map (fun x => x.1)) :
    ∀ (pre : List (String × JVal)), (∀ kv ∈ pre, kv.1 ≠ kb) →
      ∃ j, keyIdx (pre ++ (k0, v0) :: rest) kb = some j ∧ pre.length < j := by
  intro pre
  induction pre with
  | nil =>
    intro _
    show ∃ j, (if k0 = kb then some 0 else (keyIdx rest kb).map (fun i => i + 1)) = some j
        ∧ 0 < j
    rw [if_neg (Ne.symm hne)]
    obtain ⟨j0, hj0⟩ := Option.isSome_iff_exists.mp (keyIdx_isSome_of_mem rest kb hmem)
    exact ⟨j0 + 1, by rw [hj0]; rfl, Nat.succ_pos _⟩
  | cons hd tl ih =>
    intro h
    obtain ⟨hk, hv⟩ := hd
    have hkb : hk ≠ kb := h (hk, hv) (List.mem_cons_self _ _)
    obtain ⟨j, hj, hlt⟩ := ih (fun kv hkv => h kv (List.mem_cons_of_mem _ hkv))
    refine ⟨j + 1, ?_, ?_⟩
    · show (if hk = kb then some 0
            else (keyIdx (tl ++ (k0, v0) :: rest) kb).map (fun i => i + 1)) = some (j + 1)
      rw [if_neg hkb, hj]
      rfl
    · exact Nat.succ_lt_succ hlt

theorem wfJ_obj (fs : List (String × JVal)) :
    wfJ (.jobj fs) = true ↔ ((fs.map (fun x => x.1)).Nodup ∧ wfFieldsJ fs = true) := by
  show (decide ((fs.map (fun p => p.1)).Nodup) && wfFieldsJ fs) = true ↔ _
  rw [Bool.and_eq_true, decide_eq_true_eq]

theorem wfFieldsJ_cons (k : String) (v : JVal) (rest : List (String × JVal)) :
    wfFieldsJ ((k, v) :: rest) = true ↔ (wfJ v = true ∧ wfFieldsJ rest = true) := by
  show (wfJ v && wfFieldsJ rest) = true ↔ _
  rw [Bool.and_eq_true]

mutual

theorem traverseJ_shape (e : JVal) (cur p : List String) (hp : p ∈ traverseJ e cur) :
    p = cur ∨ ∃ k q, p = cur ++ k :: q ∧ k ∈ (fieldsOfJ e).map (fun x => x.1) := by
  cases e with
  | jobj fs =>
    rw [show traverseJ (.jobj fs) cur
        = (if 1 < cur.length then [cur] else []) ++ traverseFieldsJ fs cur from rfl] at hp
    rcases List.mem_append.mp hp with hp | hp
    · left
      by_cases hc : 1 < cur.length
      · rw [if_pos hc] at hp; exact List.mem_singleton.mp hp
      · rw [if_neg hc] at hp; cases hp
    · right
      exact traverseFieldsJ_shape fs cur p hp
  | jnum n =>
    left
    by_cases hc : 1 < cur.length
    · rw [show traverseJ (.jnum n) cur = if 1 < cur.length then [cur] else [] from rfl,
        if_pos hc] at hp
      exact List.mem_singleton.mp hp
    · rw [show traverseJ (.jnum n) cur = if 1 < cur.length then [cur] else [] from rfl,
        if_neg hc] at hp
      cases hp
  | jstr s =>
    left
    by_cases hc : 1 < cur.length
    · rw [show traverseJ (.jstr s) cur = if 1 < cur.length then [cur] else [] from rfl,
        if_pos hc] at hp
      exact List.mem_singleton.mp hp
    · rw [show traverseJ (.jstr s) cur = if 1 < cur.length then [cur] else [] from rfl,
        if_neg hc] at hp
      cases hp
  | jbool b =>
    left
    by_cases hc : 1 < cur.length
    · rw [show traverseJ (.jbool b) cur = if 1 < cur.length then [cur] else [] from rfl,
        if_pos hc] at hp
      exact List.mem_singleton.mp hp
    · rw [show traverseJ (.jbool b) cur = if 1 < cur.length then [cur] else [] from rfl,
        if_neg hc] at hp
      cases hp
  | jnull =>
    left
    by_cases hc : 1 < cur.length
    · rw [show traverseJ .jnull cur = if 1 < cur.length then [cur] else [] from rfl,
        if_pos hc] at hp
      exact List.mem_singleton.mp hp
    · rw [show traverseJ .jnull cur = if 1 < cur.length then [cur] else [] from rfl,
        if_neg hc] at hp
      cases hp
  | jarr xs =>
    left
    by_cases hc : 1 < cur.length
    · rw [show traverseJ (.jarr xs) cur = if 1 < cur.length then [cur] else [] from rfl,
        if_pos hc] at hp
      exact List.mem_singleton.mp hp
    · rw [show traverseJ (.jarr xs) cur = if 1 < cur.length then [cur] else [] from rfl,
        if_neg hc] at hp
      cases hp

theorem traverseFieldsJ_shape (fs : List (String × JVal)) (cur p : List String)
    (hp : p ∈ traverseFieldsJ fs cur) :
    ∃ k q, p = cur ++ k :: q ∧ k ∈ fs.map (fun x => x.1) := by
  cases fs with
  | nil => cases hp
  | cons hd rest =>
    obtain ⟨k0, v0⟩ := hd
    rw [show traverseFieldsJ ((k0, v0) :: rest) cur
        = traverseJ v0 (cur ++ [k0]) ++ traverseFieldsJ rest cur from rfl] at hp
    rcases List.mem_append.mp hp with hp | hp
    · rcases traverseJ_shape v0 (cur ++ [k0]) p hp with hp | ⟨k, q, hpe, _⟩
      · exact ⟨k0, [], hp, by simp⟩
      · refine ⟨k0, k :: q, ?_, by simp⟩
        rw [hpe, List.append_assoc]
        rfl
    · obtain ⟨k, q, hpe, hk⟩ := traverseFieldsJ_shape rest cur p hp
      exact ⟨k, q, hpe, by simp [hk]⟩

end

mutual

theorem mem_traverseJ (e : JVal) (cur p : List String) (hwf : wfJ e = true) :
    p ∈ traverseJ e cur ↔ (1 < p.length ∧ ∃ q, p = cur ++ q ∧ reachesJ q e = true) := by
  cases e with
  | jobj fs =>
    obtain ⟨hnd, hwff⟩ := (wfJ_obj fs).mp hwf
    rw [show traverseJ (.jobj fs) cur
        = (if 1 < cur.length then [cur] else []) ++ traverseFieldsJ fs cur from rfl]
    rw [List.mem_append, mem_traverseFieldsJ fs cur p hnd hwff]
    constructor
    · rintro (hp | ⟨hl, k, v, q, hlook, hpe, hre⟩)
      · by_cases hc : 1 < cur.length
        · rw [if_pos hc] at hp
          have := List.mem_singleton.mp hp
          subst this
          exact ⟨hc, [], by simp, rfl⟩
        · rw [if_neg hc] at hp; cases hp
      · refine ⟨hl, k :: q, hpe, ?_⟩
        show (match assocLookup fs k with
              | some v => reachesJ q v
              | none => false) = true
        rw [hlook]
        exact hre
    · rintro ⟨hl, q, hpe, hre⟩
      cases q with
      | nil =>
        left
        rw [List.append_nil] at hpe
        subst hpe
        rw [if_pos hl]
        exact List.mem_singleton.mpr rfl
      | cons k q' =>
        right
        have hre2 : (match assocLookup fs k with
            | some v => reachesJ q' v
            | none => false) = true := hre
        cases hlook : assocLookup fs k with
        | none => rw [hlook] at hre2; cases hre2
        | some v =>
          rw [hlook] at hre2
          exact ⟨hl, k, v, q', hlook, hpe, hre2⟩
  | jnum n =>
    rw [show traverseJ (.jnum n) cur = if 1 < cur.length then [cur] else [] from rfl]
    constructor
    · intro hp
      by_cases hc : 1 < cur.length
      · rw [if_pos hc] at hp
        have := List.mem_singleton.mp hp
        subst this
        exact ⟨hc, [], by simp, rfl⟩
      · rw [if_neg hc] at hp; cases hp
    · rintro ⟨hl, q, hpe, hre⟩
      cases q with
      | nil =>
        rw [List.append_nil] at hpe
        subst hpe
        rw [if_pos hl]
        exact List.mem_singleton.mpr rfl
      | cons k q' => cases hre
  | jstr s =>
    rw [show traverseJ (.jstr s) cur = if 1 < cur.length then [cur] else [] from rfl]
    constructor
    · intro hp
      by_cases hc : 1 < cur.length
      · rw [if_pos hc] at hp
        have := List.mem_singleton.mp hp
        subst this
        exact ⟨hc, [], by simp, rfl⟩
      · rw [if_neg hc] at hp; cases hp
    · rintro ⟨hl, q, hpe, hre⟩
      cases q with
      | nil =>
        rw [List.append_nil] at hpe
        subst hpe
        rw [if_pos hl]
        exact List.mem_singleton.mpr rfl
      | cons k q' => cases hre
  | jbool b =>
    rw [show traverseJ (.jbool b) cur = if 1 < cur.length then [cur] else [] from rfl]
    constructor
    · intro hp
      by_cases hc : 1 < cur.length
      · rw [if_pos hc] at hp
        have := List.mem_singleton.mp hp
        subst this
        exact ⟨hc, [], by simp, rfl⟩
      · rw [if_neg hc] at hp; cases hp
    · rintro ⟨hl, q, hpe, hre⟩
      cases q with
      | nil =>
        rw [List.append_nil] at hpe
        subst hpe
        rw [if_pos hl]
        exact List.mem_singleton.mpr rfl
      | cons k q' => cases hre
  | jnull =>
    rw [show traverseJ .jnull cur = if 1 < cur.length then [cur] else [] from rfl]
    constructor
    · intro hp
      by_cases hc : 1 < cur.length
      · rw [if_pos hc] at hp
        have := List.mem_singleton.mp hp
        subst this
        exact ⟨hc, [], by simp, rfl⟩
      · rw [if_neg hc] at hp; cases hp
    · rintro ⟨hl, q, hpe, hre⟩
      cases q with
      | nil =>
        rw [List.append_nil] at hpe
        subst hpe
        rw [if_pos hl]
        exact List.mem_singleton.mpr rfl
      | cons k q' => cases hre
  | jarr xs =>
    rw [show traverseJ (.jarr xs) cur = if 1 < cur.length then [cur] else [] from rfl]
    constructor
    · intro hp
      by_cases hc : 1 < cur.length
      · rw [if_pos hc] at hp
        have := List.mem_singleton.mp hp
        subst this
        exact ⟨hc, [], by simp, rfl⟩
      · rw [if_neg hc] at hp; cases hp
    · rintro ⟨hl, q, hpe, hre⟩
      cases q with
      | nil =>
        rw [List.append_nil] at hpe
        subst hpe
        rw [if_pos hl]
        exact List.mem_singleton.mpr rfl
      | cons k q' => cases hre

theorem mem_traverseFieldsJ (fs : List (String × JVal)) (cur p : List String)
    (hnd : (fs.map (fun x => x.1)).Nodup) (hwff : wfFieldsJ fs = true) :
    p ∈ traverseFieldsJ fs cur ↔
      (1 < p.length ∧ ∃ k v q, assocLookup fs k = some v ∧ p = cur ++ k :: q
        ∧ reachesJ q v = true) := by
  cases fs with
  | nil =>
    constructor
    · intro hp; cases hp
    · rintro ⟨_, k, v, q, hlook, _, _⟩
      rw [show assocLookup ([] : List (String × JVal)) k = none from rfl] at hlook
      cases hlook
  | cons hd rest =>
    obtain ⟨k0, v0⟩ := hd
    obtain ⟨hwv, hwr⟩ := (wfFieldsJ_cons k0 v0 rest).mp hwff
    have hndr : (rest.map (fun x => x.1)).Nodup := (List.nodup_cons.mp (by simpa using hnd)).2
    have hk0r : k0 ∉ rest.map (fun x => x.1) := (List.nodup_cons.mp (by simpa using hnd)).1
    rw [show traverseFieldsJ ((k0, v0) :: rest) cur
        = traverseJ v0 (cur ++ [k0]) ++ traverseFieldsJ rest cur from rfl]
    rw [List.mem_append, mem_traverseJ v0 (cur ++ [k0]) p hwv,
      mem_traverseFieldsJ rest cur p hndr hwr]
    constructor
    · rintro (⟨hl, q, hpe, hre⟩ | ⟨hl, k, v, q, hlook, hpe, hre⟩)
      · refine ⟨hl, k0, v0, q, assocLookup_cons_self k0 v0 rest, ?_, hre⟩
        rw [hpe, List.append_assoc]
        rfl
      · have hkne : k ≠ k0 := by
          intro hke
          exact hk0r (hke ▸ List.mem_map.mpr ⟨(k, v), assocLookup_mem rest k v hlook, rfl⟩)
        exact ⟨hl, k, v, q, by rw [assocLookup_cons_ne k0 v0 rest k hkne]; exact hlook,
          hpe, hre⟩
    · rintro ⟨hl, k, v, q, hlook, hpe, hre⟩
      by_cases hke : k = k0
      · subst hke
        rw [assocLookup_cons_self k v0 rest] at hlook
        have hv : v = v0 := (Option.some_inj.mp hlook).symm
        subst hv
        left
        refine ⟨hl, q, ?_, hre⟩
        rw [hpe, List.append_assoc]
        rfl
      · right
        rw [assocLookup_cons_ne k0 v0 rest k hke] at hlook
        exact ⟨hl, k, v, q, hlook, hpe, hre⟩

end

theorem dfsLtB_nil_cons (k : String) (q : List String) (s : JVal) :
    dfsLtB [] (k :: q) s = true := rfl

theorem dfsLtB_cons_eq (k : String) (r1 r2 : List String) (fs : List (String × JVal)) (v : JVal)
    (hlook : assocLookup fs k = some v) :
    dfsLtB (k :: r1) (k :: r2) (.jobj fs) = dfsLtB r1 r2 v := by
  simp [dfsLtB, hlook]

theorem dfsLtB_cons_ne (k1 k2 : String) (r1 r2 : List String) (fs : List (String × JVal))
    (i j : Nat) (hne : k1 ≠ k2) (hi : keyIdx fs k1 = some i) (hj : keyIdx fs k2 = some j)
    (hij : i < j) : dfsLtB (k1 :: r1) (k2 :: r2) (.jobj fs) = true := by
  simp [dfsLtB, hne, hi, hj, hij]

mutual

theorem pairwise_traverseJ (e : JVal) (cur : List String) (hwf : wfJ e = true) :
    (traverseJ e cur).Pairwise
      (fun p q => ∃ p0 q0, p = cur ++ p0 ∧ q = cur ++ q0 ∧ dfsLtB p0 q0 e = true) := by
  cases e with
  | jobj fs =>
    obtain ⟨hnd, hwff⟩ := (wfJ_obj fs).mp hwf
    rw [show traverseJ (.jobj fs) cur
        = (if 1 < cur.length then [cur] else []) ++ traverseFieldsJ fs cur from rfl]
    refine List.pairwise_append.mpr ⟨?_, ?_, ?_⟩
    · by_cases hc : 1 < cur.length
      · rw [if_pos hc]; exact List.pairwise_singleton _ _
      · rw [if_neg hc]; exact List.Pairwise.nil
    · exact pairwise_traverseFieldsJ [] fs cur hnd hwff
    · intro a ha b hb
      have hae : a = cur := by
        by_cases hc : 1 < cur.length
        · rw [if_pos hc] at ha; exact List.mem_singleton.mp ha
        · rw [if_neg hc] at ha; cases ha
      obtain ⟨k, q, hbe, _⟩ := traverseFieldsJ_shape fs cur b hb
      exact ⟨[], k :: q, by rw [hae, List.append_nil], hbe, dfsLtB_nil_cons k q _⟩
  | jnum n =>
    by_cases hc : 1 < cur.length
    · rw [show traverseJ (.jnum n) cur = if 1 < cur.length then [cur] else [] from rfl,
        if_pos hc]
      exact List.pairwise_singleton _ _
    · rw [show traverseJ (.jnum n) cur = if 1 < cur.length then [cur] else [] from rfl,
        if_neg hc]
      exact List.Pairwise.nil
  | jstr s =>
    by_cases hc : 1 < cur.length
    · rw [show traverseJ (.jstr s) cur = if 1 < cur.length then [cur] else [] from rfl,
        if_pos hc]
      exact List.pairwise_singleton _ _
    · rw [show traverseJ (.jstr s) cur = if 1 < cur.length then [cur] else [] from rfl,
        if_neg hc]
      exact List.Pairwise.nil
  | jbool b =>
    by_cases hc : 1 < cur.length
    · rw [show traverseJ (.jbool b) cur = if 1 < cur.length then [cur] else [] from rfl,
        if_pos hc]
      exact List.pairwise_singleton _ _
    · rw [show traverseJ (.jbool b) cur = if 1 < cur.length then [cur] else [] from rfl,
        if_neg hc]
      exact List.Pairwise.nil
  | jnull =>
    by_cases hc : 1 < cur.length
    · rw [show traverseJ .jnull cur = if 1 < cur.length then [cur] else [] from rfl,
        if_pos hc]
      exact List.pairwise_singleton _ _
    · rw [show traverseJ .jnull cur = if 1 < cur.length then [cur] else [] from rfl,
        if_neg hc]
      exact List.Pairwise.nil
  | jarr xs =>
    by_cases hc : 1 < cur.length
    · rw [show traverseJ (.jarr xs) cur = if 1 < cur.length then [cur] else [] from rfl,
        if_pos hc]
      exact List.pairwise_singleton _ _
    · rw [show traverseJ (.jarr xs) cur = if 1 < cur.length then [cur] else [] from rfl,
        if_neg hc]
      exact List.Pairwise.nil

theorem pairwise_traverseFieldsJ (pre fs : List (String × JVal)) (cur : List String)
    (hnd : (((pre ++ fs).map (fun x => x.1)).Nodup)) (hwff : wfFieldsJ fs = true) :
    (traverseFieldsJ fs cur).Pairwise
      (fun p q => ∃ p0 q0, p = cur ++ p0 ∧ q = cur ++ q0
        ∧ dfsLtB p0 q0 (.jobj (pre ++ fs)) = true) := by
  cases fs with
  | nil => exact List.Pairwise.nil
  | cons hd rest =>
    obtain ⟨k0, v0⟩ := hd
    obtain ⟨hwv, hwr⟩ := (wfFieldsJ_cons k0 v0 rest).mp hwff
    have hnd2 : (pre.map (fun x => x.1) ++ (k0 :: rest.map (fun x => x.1))).Nodup := by
      simpa using hnd
    obtain ⟨hnp, hnc, hdisj⟩ := List.nodup_append.mp hnd2
    have hk0pre : ∀ kv ∈ pre, kv.1 ≠ k0 := by
      intro kv hkv hke
      exact hdisj (List.mem_map.mpr ⟨kv, hkv, hke⟩) (List.mem_cons_self _ _)
    have hk0rest : k0 ∉ rest.map (fun x => x.1) := (List.nodup_cons.mp hnc).1
    rw [show traverseFieldsJ ((k0, v0) :: rest) cur
        = traverseJ v0 (cur ++ [k0]) ++ traverseFieldsJ rest cur from rfl]
    refine List.pairwise_append.mpr ⟨?_, ?_, ?_⟩
    · have hlook : assocLookup (pre ++ (k0, v0) :: rest) k0 = some v0 := by
        rw [assocLookup_append_not_mem _ pre k0 hk0pre]
        exact assocLookup_cons_self k0 v0 rest
      refine (pairwise_traverseJ v0 (cur ++ [k0]) hwv).imp ?_
      rintro p q ⟨p0, q0, hp, hq, hlt⟩
      refine ⟨k0 :: p0, k0 :: q0, ?_, ?_, ?_⟩
      · rw [hp, List.append_assoc]; rfl
      · rw [hq, List.append_assoc]; rfl
      · rw [dfsLtB_cons_eq k0 p0 q0 _ v0 hlook]
        exact hlt
    · have hnd3 : (((pre ++ [(k0, v0)]) ++ rest).map (fun x => x.1)).Nodup := by
        rw [List.append_assoc]
        simpa using hnd
      have hpw := pairwise_traverseFieldsJ (pre ++ [(k0, v0)]) rest cur hnd3 hwr
      have he : (pre ++ [(k0, v0)]) ++ rest = pre ++ (k0, v0) :: rest := by
        rw [List.append_assoc]; rfl
      rw [he] at hpw
      exact hpw
    · intro a ha b hb
      have hsha : ∃ pa, a = cur ++ k0 :: pa := by
        rcases traverseJ_shape v0 (cur ++ [k0]) a ha with hae | ⟨k', q', hae, _⟩
        · exact ⟨[], hae⟩
        · refine ⟨k' :: q', ?_⟩
          rw [hae, List.append_assoc]
          rfl
      obtain ⟨pa, hae⟩ := hsha
      obtain ⟨kb, qb, hbe, hkb⟩ := traverseFieldsJ_shape rest cur b hb
      have hkbne : kb ≠ k0 := fun hke => hk0rest (hke ▸ hkb)
      have hkbpre : ∀ kv ∈ pre, kv.1 ≠ kb := by
        intro kv hkv hke
        exact hdisj (List.mem_map.mpr ⟨kv, hkv, hke⟩) (List.mem_cons_of_mem _ (hke ▸ hkb))
      have hi := keyIdx_pre_cons_self rest k0 v0 pre hk0pre
      obtain ⟨j, hj, hij⟩ := keyIdx_pre_rest_gt rest k0 v0 kb hkbne hkb pre hkbpre
      exact ⟨k0 :: pa, kb :: qb, hae, hbe,
        dfsLtB_cons_ne k0 kb pa qb _ pre.length j (Ne.symm hkbne) hi hj hij⟩

end

/-- C6: for every well-formed state object (distinct keys at each level, as
in any real JavaScript object), `getNestedRoutes` returns exactly the paths of
length at least 2 addressing locations reachable from the root through plain
objects — including paths ending at intermediate objects — never descending
into arrays, `null`, or non-mapping leaves; and the returned list is ordered
by the depth-first key-enumeration order (a path precedes its extensions, and
paths diverging at an object are ordered by that object's key order). -/
theorem c6_getNestedRoutes (s : JVal) (hwf : wfJ s = true) :
    (∀ p, p ∈ getNestedRoutes s ↔ (2 ≤ p.length ∧ reachesJ p s = true))
    ∧ (getNestedRoutes s).Pairwise (fun p q => dfsLtB p q s = true) := by
  constructor
  · intro p
    rw [show getNestedRoutes s = traverseJ s [] from rfl, mem_traverseJ s [] p hwf]
    constructor
    · rintro ⟨hl, q, hpe, hre⟩
      rw [List.nil_append] at hpe
      subst hpe
      exact ⟨hl, hre⟩
    · rintro ⟨hl, hre⟩
      exact ⟨hl, p, by rw [List.nil_append], hre⟩
  · refine (pairwise_traverseJ s [] hwf).imp ?_
    rintro p q ⟨p0, q0, hp, hq, hlt⟩
    rw [List.nil_append] at hp hq
    rw [hp, hq]
    exact hlt

/-- C6 witness: the state `{a: 1, nested: {v: "x"}}` discovers exactly the
deep path and the output is DFS-ordered. -/
theorem c6_witness :
    (["nested", "v"] ∈ getNestedRoutes c6s
      ↔ (2 ≤ (["nested", "v"] : List String).length ∧ reachesJ ["nested", "v"] c6s = true))
    ∧ (getNestedRoutes c6s).Pairwise (fun p q => dfsLtB p q c6s = true) :=
  ⟨(c6_getNestedRoutes c6s (by decide)).1 ["nested", "v"],
    (c6_getNestedRoutes c6s (by decide)).2⟩

-- ===================== C2: redaction filter round trip =====================

theorem assocLookup_assocDel_ne {α : Type} (m : List (String × α)) (k k2 : String)
    (h : k2 ≠ k) : assocLookup (assocDel m k) k2 = assocLookup m k2 := by
  induction m with
  | nil => rfl
  | cons hd tl ih =>
    obtain ⟨hk, hv⟩ := hd
    by_cases he : hk = k
    · have hdel : assocDel ((hk, hv) :: tl) k = assocDel tl k := by
        simp [assocDel, he]
      rw [hdel, ih, assocLookup_cons_ne hk hv tl k2 (he ▸ h)]
    · have hdel : assocDel ((hk, hv) :: tl) k = (hk, hv) :: assocDel tl k := by
        simp [assocDel, he]
      rw [hdel]
      by_cases h2 : k2 = hk
      · subst h2
        rw [assocLookup_cons_self, assocLookup_cons_self]
      · rw [assocLookup_cons_ne hk hv _ k2 h2, assocLookup_cons_ne hk hv _ k2 h2, ih]

theorem Heap.getField_delField_ne (h : Heap) (a : Addr) (k0 k : String) (hk : k ≠ k0) :
    (h.delField a k0).getField a k = h.getField a k := by
  unfold Heap.delField Heap.getField
  cases ho : h.mem a with
  | none => rw [ho]
  | some o =>
    simp only [Heap.write_mem_self, Option.some_bind]
    exact assocLookup_assocDel_ne o k0 k hk

theorem Heap.getField_delField_other (h : Heap) (a0 : Addr) (k0 : String) (a : Addr)
    (k : String) (ha : a ≠ a0) : (h.delField a0 k0).getField a k = h.getField a k := by
  unfold Heap.getField
  rw [Heap.delField_mem_ne h a0 k0 a ha]

theorem delField_none_cases (h : Heap) (a0 : Addr) (k0 : String) (a : Addr) (k : String)
    (w : HVal) (hsome : h.getField a k = some w)
    (hnone : (h.delField a0 k0).getField a k = none) : a = a0 ∧ k = k0 := by
  by_cases ha : a = a0
  · subst ha
    by_cases hk : k = k0
    · exact ⟨rfl, hk⟩
    · rw [Heap.getField_delField_ne h a k0 k hk, hsome] at hnone
      cases hnone
  · rw [Heap.getField_delField_other h a0 k0 a k ha, hsome] at hnone
    cases hnone

theorem fieldSub_refl (h : Heap) : FieldSub h h := fun _ _ _ hw => hw

theorem fieldSub_trans {h3 h2 h1 : Heap} (h32 : FieldSub h3 h2) (h21 : FieldSub h2 h1) :
    FieldSub h3 h1 := fun a k w hw => h21 a k w (h32 a k w hw)

theorem fieldSub_delField (h : Heap) (a : Addr) (k : String) : FieldSub (h.delField a k) h := by
  intro b k2 w hw
  by_cases hb : b = a
  · subst hb
    by_cases hk2 : k2 = k
    · subst hk2
      rw [Heap.getField_delField_self] at hw
      cases hw
    · rw [Heap.getField_delField_ne h b k k2 hk2] at hw
      exact hw
  · rw [Heap.getField_delField_other h a k b k2 hb] at hw
    exact hw

theorem getPathH_mono {h2 h1 : Heap} (hsub : FieldSub h2 h1) :
    ∀ (q : List String) (w x : HVal), getPathH h2 q w = some x → getPathH h1 q w = some x := by
  intro q
  induction q with
  | nil => intro w x hw; exact hw
  | cons k q' ih =>
    intro w x hw
    cases w with
    | hobj a =>
      have hw2 : (match h2.getField a k with
          | some w2 => getPathH h2 q' w2
          | none => none) = some x := hw
      cases hg : h2.getField a k with
      | none => rw [hg] at hw2; cases hw2
      | some w2 =>
        rw [hg] at hw2
        show (match h1.getField a k with
              | some w2 => getPathH h1 q' w2
              | none => none) = some x
        rw [hsub a k w2 hg]
        exact ih w2 x hw2
    | hnum n => cases hw
    | hstr s => cases hw
    | hbool b => cases hw
    | hnull => cases hw
    | hundef => cases hw
    | harr xs => cases hw

theorem getPathH_none_mono {h2 h1 : Heap} (hsub : FieldSub h2 h1) (q : List String) (w : HVal)
    (hn : getPathH h1 q w = none) : getPathH h2 q w = none := by
  cases hq : getPathH h2 q w with
  | none => rfl
  | some x => rw [getPathH_mono hsub q w x hq] at hn; cases hn

theorem getField_none_mono {h2 h1 : Heap} (hsub : FieldSub h2 h1) (a : Addr) (k : String)
    (hn : h1.getField a k = none) : h2.getField a k = none := by
  cases hq : h2.getField a k with
  | none => rfl
  | some w => rw [hsub a k w hq] at hn; cases hn

theorem cleanWalk_sub : ∀ (p : List String) (h : Heap) (w : HVal),
    FieldSub (cleanWalk h p w).1 h := by
  intro p
  induction p with
  | nil => intro h w; exact fieldSub_refl h
  | cons k rest ih =>
    intro h w
    cases rest with
    | nil =>
      cases w with
      | hobj a => exact fieldSub_delField h a k
      | hnum n => exact fieldSub_refl h
      | hstr s => exact fieldSub_refl h
      | hbool b => exact fieldSub_refl h
      | hnull => exact fieldSub_refl h
      | hundef => exact fieldSub_refl h
      | harr xs => exact fieldSub_refl h
    | cons r0 rs =>
      cases w with
      | hobj a => exact ih h _
      | hnum n => exact ih h _
      | hstr s => exact ih h _
      | hbool b => exact ih h _
      | hnull => exact fieldSub_refl h
      | hundef => exact fieldSub_refl h
      | harr xs => exact ih h _

theorem cleanWalk_kills : ∀ (p : List String) (h : Heap) (w : HVal), p ≠ [] →
    getPathH (cleanWalk h p w).1 p w = none := by
  intro p
  induction p with
  | nil => intro h w hp; exact absurd rfl hp
  | cons k rest ih =>
    intro h w _
    cases rest with
    | nil =>
      cases w with
      | hobj a =>
        show (match (h.delField a k).getField a k with
              | some w2 => getPathH (h.delField a k) [] w2
              | none => none) = none
        rw [Heap.getField_delField_self]
      | hnum n => rfl
      | hstr s => rfl
      | hbool b => rfl
      | hnull => rfl
      | hundef => rfl
      | harr xs => rfl
    | cons r0 rs =>
      cases w with
      | hobj a =>
        cases hg : h.getField a k with
        | none =>
          have hsub := cleanWalk_sub (r0 :: rs) h ((h.getField a k).getD .hundef)
          have hnone : (cleanWalk h (r0 :: rs) ((h.getField a k).getD .hundef)).1.getField a k
              = none := getField_none_mono hsub a k hg
          show (match (cleanWalk h (r0 :: rs) ((h.getField a k).getD .hundef)).1.getField a k with
                | some w2 =>
                  getPathH (cleanWalk h (r0 :: rs) ((h.getField a k).getD .hundef)).1 (r0 :: rs) w2
                | none => none) = none
          rw [hnone]
        | some w2 =>
          have hsub := cleanWalk_sub (r0 :: rs) h ((h.getField a k).getD .hundef)
          show (match (cleanWalk h (r0 :: rs) ((h.getField a k).getD .hundef)).1.getField a k with
                | some w3 =>
                  getPathH (cleanWalk h (r0 :: rs) ((h.getField a k).getD .hundef)).1 (r0 :: rs) w3
                | none => none) = none
          cases hg2 : (cleanWalk h (r0 :: rs) ((h.getField a k).getD .hundef)).1.getField a k with
          | none => rfl
          | some w3 =>
            have hw3 : h.getField a k = some w3 := hsub a k w3 hg2
            rw [hg] at hw3
            have hw32 : w2 = w3 := Option.some_inj.mp hw3
            have hgd : (h.getField a k).getD .hundef = w3 := by rw [hg, hw32]; rfl
            dsimp only
            rw [hgd]
            exact ih h w3 (by simp)
      | hnum n => rfl
      | hstr s => rfl
      | hbool b => rfl
      | hnull => rfl
      | hundef => rfl
      | harr xs => rfl

theorem cleanEntry_sub (h : Heap) (c : Addr) (e : PEntry) : FieldSub (cleanEntry h c e).1 h := by
  cases e with
  | key k => exact fieldSub_delField h c k
  | path ks => exact cleanWalk_sub ks h (.hobj c)

theorem cleanFold_sub (c : Addr) : ∀ (l : List PEntry) (acc : Heap × Nat),
    FieldSub (l.foldl (cleanStep c) acc).1 acc.1 := by
  intro l
  induction l with
  | nil => intro acc; exact fieldSub_refl _
  | cons e rest ih =>
    intro acc
    exact fieldSub_trans (ih (cleanStep c acc e)) (cleanEntry_sub acc.1 c e)

theorem cleanFold_kill_key (c : Addr) : ∀ (l : List PEntry) (acc : Heap × Nat) (k : String),
    PEntry.key k ∈ l → ((l.foldl (cleanStep c) acc).1).getField c k = none := by
  intro l
  induction l with
  | nil => intro acc k hk; cases hk
  | cons e rest ih =>
    intro acc k hk
    rcases List.mem_cons.mp hk with hk | hk
    · subst hk
      refine getField_none_mono (cleanFold_sub c rest (cleanStep c acc (PEntry.key k))) c k ?_
      exact Heap.getField_delField_self acc.1 c k
    · exact ih (cleanStep c acc e) k hk

theorem cleanFold_kill_path (c : Addr) : ∀ (l : List PEntry) (acc : Heap × Nat)
    (p : List String), PEntry.path p ∈ l → p ≠ [] →
    getPathH ((l.foldl (cleanStep c) acc).1) p (.hobj c) = none := by
  intro l
  induction l with
  | nil => intro acc p hp _; cases hp
  | cons e rest ih =>
    intro acc p hp hpne
    rcases List.mem_cons.mp hp with hp | hp
    · subst hp
      refine getPathH_none_mono (cleanFold_sub c rest (cleanStep c acc (PEntry.path p)))
        p (.hobj c) ?_
      exact cleanWalk_kills p acc.1 (.hobj c) hpne
    · exact ih (cleanStep c acc e) p hp hpne

theorem isPrefixOf_append_cons : ∀ (l : List String) (x : String) (t : List String),
    (l ++ [x]).isPrefixOf (l ++ x :: t) = true := by
  intro l x t
  induction l with
  | nil => simp [List.isPrefixOf]
  | cons a l ih => simp [List.isPrefixOf, ih]

theorem spread_lookup_some (h : Heap) (v : HVal) (k : String) (w : HVal)
    (hl : assocLookup (spreadFields h v) k = some w) :
    ∃ r, v = .hobj r ∧ h.getField r k = some w := by
  cases v with
  | hobj r =>
    refine ⟨r, rfl, ?_⟩
    unfold Heap.getField
    cases hm : h.mem r with
    | none =>
      rw [show spreadFields h (.hobj r) = (h.mem r).getD [] from rfl, hm] at hl
      cases hl
    | some o =>
      rw [show spreadFields h (.hobj r) = (h.mem r).getD [] from rfl, hm] at hl
      exact hl
  | hnum n => cases hl
  | hstr s => cases hl
  | hbool b => cases hl
  | hnull => cases hl
  | hundef => cases hl
  | harr xs => cases hl

theorem spread_lookup_of_getField (h : Heap) (r : Addr) (k : String) (w : HVal)
    (hg : h.getField r k = some w) :
    assocLookup (spreadFields h (.hobj r)) k = some w := by
  unfold Heap.getField at hg
  cases hm : h.mem r with
  | none => rw [hm] at hg; cases hg
  | some o =>
    rw [hm] at hg
    rw [show spreadFields h (.hobj r) = (h.mem r).getD [] from rfl, hm]
    exact hg

theorem getField_target_below {h : Heap} {n : Nat} (hc : ClosedBelow h n) (a : Addr)
    (ha : a < n) (k : String) (w : HVal) (hg : h.getField a k = some w) :
    TargetBelow w n := by
  intro b hb
  unfold Heap.getField at hg
  cases hm : h.mem a with
  | none => rw [hm] at hg; cases hg
  | some o =>
    rw [hm] at hg
    exact hc a o hm ha (k, w) (assocLookup_mem o k w hg) b hb

theorem getPathH_snoc (h : Heap) (k : String) (w : HVal) :
    ∀ (p : List String) (v : HVal) (a : Addr), getPathH h p v = some (.hobj a) →
    h.getField a k = some w → getPathH h (p ++ [k]) v = some w := by
  intro p
  induction p with
  | nil =>
    intro v a hv hg
    have hva : v = .hobj a := Option.some_inj.mp hv
    subst hva
    show (match h.getField a k with
          | some w2 => getPathH h [] w2
          | none => none) = some w
    rw [hg]
    rfl
  | cons k0 p' ih =>
    intro v a hv hg
    cases v with
    | hobj r =>
      have hv2 : (match h.getField r k0 with
          | some w2 => getPathH h p' w2
          | none => none) = some (.hobj a) := hv
      cases hg0 : h.getField r k0 with
      | none => rw [hg0] at hv2; cases hv2
      | some w0 =>
        rw [hg0] at hv2
        show (match h.getField r k0 with
              | some w2 => getPathH h (p' ++ [k]) w2
              | none => none) = some w
        rw [hg0]
        exact ih w0 a hv2 hg
    | hnum n => cases hv
    | hstr s => cases hv
    | hbool b => cases hv
    | hnull => cases hv
    | hundef => cases hv
    | harr xs => cases hv

theorem getPathH_hundef_ne_obj (h : Heap) : ∀ (q : List String) (a : Addr),
    getPathH h q .hundef ≠ some (.hobj a) := by
  intro q a hq
  cases q with
  | nil =>
    have := Option.some_inj.mp hq
    cases this
  | cons k rest => cases hq

theorem cleanWalk_effect : ∀ (p : List String) (h : Heap) (w : HVal),
    (cleanWalk h p w).1 = h ∨
    ∃ init k a, p = init ++ [k] ∧ getPathH h init w = some (.hobj a)
      ∧ (cleanWalk h p w).1 = h.delField a k := by
  intro p
  induction p with
  | nil => intro h w; exact Or.inl rfl
  | cons k rest ih =>
    intro h w
    cases rest with
    | nil =>
      cases w with
      | hobj a => exact Or.inr ⟨[], k, a, rfl, rfl, rfl⟩
      | hnum n => exact Or.inl rfl
      | hstr s => exact Or.inl rfl
      | hbool b => exact Or.inl rfl
      | hnull => exact Or.inl rfl
      | hundef => exact Or.inl rfl
      | harr xs => exact Or.inl rfl
    | cons r0 rs =>
      cases w with
      | hobj a =>
        have heq : (cleanWalk h (k :: r0 :: rs) (.hobj a)).1
            = (cleanWalk h (r0 :: rs) ((h.getField a k).getD .hundef)).1 := rfl
        rcases ih h ((h.getField a k).getD .hundef) with hl | ⟨init, k2, b, hp, hpath, hres⟩
        · rw [heq, hl]; exact Or.inl rfl
        · cases hg : h.getField a k with
          | none =>
            rw [hg] at hpath
            exact absurd hpath (getPathH_hundef_ne_obj h init b)
          | some w2 =>
            refine Or.inr ⟨k :: init, k2, b, by rw [hp]; rfl, ?_, by rw [heq, hres]⟩
            show (match h.getField a k with
                  | some w3 => getPathH h init w3
                  | none => none) = some (.hobj b)
            rw [hg]
            rw [hg] at hpath
            exact hpath
      | hnum n =>
        rcases ih h .hundef with hl | ⟨init, k2, b, hp, hpath, hres⟩
        · rw [show (cleanWalk h (k :: r0 :: rs) (.hnum n)).1
              = (cleanWalk h (r0 :: rs) .hundef).1 from rfl, hl]
          exact Or.inl rfl
        · exact absurd hpath (getPathH_hundef_ne_obj h init b)
      | hstr s =>
        rcases ih h .hundef with hl | ⟨init, k2, b, hp, hpath, hres⟩
        · rw [show (cleanWalk h (k :: r0 :: rs) (.hstr s)).1
              = (cleanWalk h (r0 :: rs) .hundef).1 from rfl, hl]
          exact Or.inl rfl
        · exact absurd hpath (getPathH_hundef_ne_obj h init b)
      | hbool b0 =>
        rcases ih h .hundef with hl | ⟨init, k2, b, hp, hpath, hres⟩
        · rw [show (cleanWalk h (k :: r0 :: rs) (.hbool b0)).1
              = (cleanWalk h (r0 :: rs) .hundef).1 from rfl, hl]
          exact Or.inl rfl
        · exact absurd hpath (getPathH_hundef_ne_obj h init b)
      | hnull => exact Or.inl rfl
      | hundef => exact Or.inl rfl
      | harr xs =>
        rcases ih h .hundef with hl | ⟨init, k2, b, hp, hpath, hres⟩
        · rw [show (cleanWalk h (k :: r0 :: rs) (.harr xs)).1
              = (cleanWalk h (r0 :: rs) .hundef).1 from rfl, hl]
          exact Or.inl rfl
        · exact absurd hpath (getPathH_hundef_ne_obj h init b)

theorem walkTransfer {h hh : Heap} (hclosed : ClosedBelow h h.next)
    (h3 : ∀ a k w, a ≠ h.next → hh.getField a k = some w → h.getField a k = some w) :
    ∀ (rest : List String) (w x : HVal), TargetBelow w h.next →
    getPathH hh rest w = some x → getPathH h rest w = some x ∧ TargetBelow x h.next := by
  intro rest
  induction rest with
  | nil =>
    intro w x htb hw
    have hwx : w = x := Option.some_inj.mp hw
    subst hwx
    exact ⟨rfl, htb⟩
  | cons k1 rest' ih =>
    intro w x htb hw
    cases w with
    | hobj a =>
      have ha : a < h.next := htb a rfl
      have hw2 : (match hh.getField a k1 with
          | some w2 => getPathH hh rest' w2
          | none => none) = some x := hw
      cases hg : hh.getField a k1 with
      | none => rw [hg] at hw2; cases hw2
      | some w1 =>
        rw [hg] at hw2
        have hg1 : h.getField a k1 = some w1 := h3 a k1 w1 (Nat.ne_of_lt ha) hg
        have htb1 : TargetBelow w1 h.next := getField_target_below hclosed a ha k1 w1 hg1
        obtain ⟨hrec, htbx⟩ := ih w1 x htb1 hw2
        refine ⟨?_, htbx⟩
        show (match h.getField a k1 with
              | some w2 => getPathH h rest' w2
              | none => none) = some x
        rw [hg1]
        exact hrec
    | hnum n => cases hw
    | hstr s => cases hw
    | hbool b => cases hw
    | hnull => cases hw
    | hundef => cases hw
    | harr xs => cases hw

theorem pathTransfer {h hh : Heap} {v : HVal} (hclosed : ClosedBelow h h.next)
    (htv : TargetBelow v h.next)
    (h1 : ∀ k w, hh.getField h.next k = some w → assocLookup (spreadFields h v) k = some w)
    (h3 : ∀ a k w, a ≠ h.next → hh.getField a k = some w → h.getField a k = some w) :
    ∀ (init : List String) (x : HVal), init ≠ [] →
    getPathH hh init (.hobj h.next) = some x →
    getPathH h init v = some x ∧ TargetBelow x h.next := by
  intro init x hne hw
  cases init with
  | nil => exact absurd rfl hne
  | cons k0 irest =>
    have hw2 : (match hh.getField h.next k0 with
        | some w2 => getPathH hh irest w2
        | none => none) = some x := hw
    cases hg : hh.getField h.next k0 with
    | none => rw [hg] at hw2; cases hw2
    | some w0 =>
      rw [hg] at hw2
      obtain ⟨r, hvr, hgr⟩ := spread_lookup_some h v k0 w0 (h1 k0 w0 hg)
      subst hvr
      have hr : r < h.next := htv r rfl
      have htb0 : TargetBelow w0 h.next := getField_target_below hclosed r hr k0 w0 hgr
      obtain ⟨hrec, htbx⟩ := walkTransfer hclosed h3 irest w0 x htb0 hw2
      refine ⟨?_, htbx⟩
      show (match h.getField r k0 with
            | some w2 => getPathH h irest w2
            | none => none) = some x
      rw [hgr]
      exact hrec

theorem c2inv_base (h : Heap) (v : HVal) (entries : List PEntry) :
    C2Inv h v entries (h.alloc (spreadFields h v)).1 := by
  have hmemself := Heap.alloc_mem_self h (spreadFields h v)
  refine ⟨?_, ?_, ?_, ?_⟩
  · intro k w hw
    unfold Heap.getField at hw
    rw [hmemself] at hw
    exact hw
  · intro k w hl hnone
    have hsome : (h.alloc (spreadFields h v)).1.getField h.next k = some w := by
      unfold Heap.getField
      rw [hmemself]
      exact hl
    rw [hsome] at hnone
    cases hnone
  · intro a k w ha hw
    unfold Heap.getField at hw ⊢
    rw [Heap.alloc_mem_ne h (spreadFields h v) a ha] at hw
    exact hw
  · intro a k w ha hw hnone
    have heq : (h.alloc (spreadFields h v)).1.getField a k = h.getField a k := by
      unfold Heap.getField
      rw [Heap.alloc_mem_ne h (spreadFields h v) a ha]
    rw [heq, hw] at hnone
    cases hnone

theorem c2inv_step {h : Heap} {v : HVal} {entries : List PEntry} {hh : Heap}
    (hclosed : ClosedBelow h h.next) (htv : TargetBelow v h.next)
    (hinv : C2Inv h v entries hh) (e : PEntry) (he : e ∈ entries) :
    C2Inv h v entries (cleanEntry hh h.next e).1 := by
  obtain ⟨h1, h2, h3, h4⟩ := hinv
  cases e with
  | key k0 =>
    have heq : (cleanEntry hh h.next (PEntry.key k0)).1 = hh.delField h.next k0 := rfl
    rw [heq]
    refine ⟨?_, ?_, ?_, ?_⟩
    · intro k w hw
      exact h1 k w (fieldSub_delField hh h.next k0 h.next k w hw)
    · intro k w hl hnone
      cases hold : hh.getField h.next k with
      | none => exact h2 k w hl hold
      | some w2 =>
        obtain ⟨_, hk⟩ := delField_none_cases hh h.next k0 h.next k w2 hold hnone
        exact ⟨PEntry.key k0, he, by rw [hk]; rfl⟩
    · intro a k w ha hw
      rw [Heap.getField_delField_other hh h.next k0 a k ha] at hw
      exact h3 a k w ha hw
    · intro a k w ha hw hnone
      rw [Heap.getField_delField_other hh h.next k0 a k ha] at hnone
      exact h4 a k w ha hw hnone
  | path ks =>
    rcases cleanWalk_effect ks hh (.hobj h.next) with heff | ⟨init, kd, ad, hks, hpath, heff⟩
    · have heq : (cleanEntry hh h.next (PEntry.path ks)).1 = hh := heff
      rw [heq]
      exact ⟨h1, h2, h3, h4⟩
    · have heq : (cleanEntry hh h.next (PEntry.path ks)).1 = hh.delField ad kd := heff
      rw [heq]
      by_cases hinit : init = []
      · subst hinit
        have had : h.next = ad := HVal.hobj.inj (Option.some_inj.mp hpath)
        subst had
        refine ⟨?_, ?_, ?_, ?_⟩
        · intro k w hw
          exact h1 k w (fieldSub_delField hh h.next kd h.next k w hw)
        · intro k w hl hnone
          cases hold : hh.getField h.next k with
          | none => exact h2 k w hl hold
          | some w2 =>
            obtain ⟨_, hk⟩ := delField_none_cases hh h.next kd h.next k w2 hold hnone
            exact ⟨PEntry.path ks, he, by rw [hks, hk]; rfl⟩
        · intro a k w ha hw
          rw [Heap.getField_delField_other hh h.next kd a k ha] at hw
          exact h3 a k w ha hw
        · intro a k w ha hw hnone
          rw [Heap.getField_delField_other hh h.next kd a k ha] at hnone
          exact h4 a k w ha hw hnone
      · obtain ⟨hpathh, htbad⟩ := pathTransfer hclosed htv h1 h3 init (.hobj ad) hinit hpath
        have hadlt : ad < h.next := htbad ad rfl
        have hadne : ad ≠ h.next := Nat.ne_of_lt hadlt
        refine ⟨?_, ?_, ?_, ?_⟩
        · intro k w hw
          rw [Heap.getField_delField_other hh ad kd h.next k (Ne.symm hadne)] at hw
          exact h1 k w hw
        · intro k w hl hnone
          rw [Heap.getField_delField_other hh ad kd h.next k (Ne.symm hadne)] at hnone
          exact h2 k w hl hnone
        · intro a k w ha hw
          exact h3 a k w ha (fieldSub_delField hh ad kd a k w hw)
        · intro a k w ha hw hnone
          cases hold : hh.getField a k with
          | none => exact h4 a k w ha hw hold
          | some w2 =>
            obtain ⟨ha2, hk2⟩ := delField_none_cases hh ad kd a k w2 hold hnone
            refine ⟨PEntry.path ks, he, init, ?_, hinit, ?_⟩
            · rw [hks, hk2]; rfl
            · rw [ha2]; exact hpathh

theorem c2inv_fold {h : Heap} {v : HVal} {entries : List PEntry}
    (hclosed : ClosedBelow h h.next) (htv : TargetBelow v h.next) :
    ∀ (l : List PEntry) (acc : Heap × Nat), (∀ e ∈ l, e ∈ entries) →
    C2Inv h v entries acc.1 → C2Inv h v entries ((l.foldl (cleanStep h.next) acc).1) := by
  intro l
  induction l with
  | nil => intro acc _ hinv; exact hinv
  | cons e rest ih =>
    intro acc hsub hinv
    refine ih (cleanStep h.next acc e) (fun x hx => hsub x (List.mem_cons_of_mem e hx)) ?_
    exact c2inv_step hclosed htv hinv e (hsub e (List.mem_cons_self e rest))

theorem agreeWalk {h hf : Heap} {v : HVal} {entries : List PEntry}
    (hclosed : ClosedBelow h h.next)
    (hinj : ∀ q1 q2 b, getPathH h q1 v = some (.hobj b) → getPathH h q2 v = some (.hobj b) →
      q1 = q2)
    (h3 : ∀ a k w, a ≠ h.next → hf.getField a k = some w → h.getField a k = some w)
    (h4 : ∀ a k w, a ≠ h.next → h.getField a k = some w → hf.getField a k = none →
        ∃ e ∈ entries, ∃ init, normE e = init ++ [k] ∧ init ≠ []
          ∧ getPathH h init v = some (.hobj a)) :
    ∀ (rest done : List String) (w : HVal), done ≠ [] →
    getPathH h done v = some w → TargetBelow w h.next →
    (∀ e ∈ entries, (normE e).isPrefixOf (done ++ rest) = false) →
    getPathH hf rest w = getPathH h rest w := by
  intro rest
  induction rest with
  | nil => intro done w _ _ _ _; rfl
  | cons k1 rest' ih =>
    intro done w hdne hdone htb hpre
    cases w with
    | hobj a =>
      have ha : a < h.next := htb a rfl
      have hane : a ≠ h.next := Nat.ne_of_lt ha
      show (match hf.getField a k1 with
            | some w2 => getPathH hf rest' w2
            | none => none)
          = (match h.getField a k1 with
            | some w2 => getPathH h rest' w2
            | none => none)
      cases hgf : hf.getField a k1 with
      | some w1 =>
        have hg : h.getField a k1 = some w1 := h3 a k1 w1 hane hgf
        rw [hg]
        have hdone1 : getPathH h (done ++ [k1]) v = some w1 :=
          getPathH_snoc h k1 w1 done v a hdone hg
        have htb1 : TargetBelow w1 h.next := getField_target_below hclosed a ha k1 w1 hg
        refine ih (done ++ [k1]) w1 (by simp) hdone1 htb1 ?_
        intro e hee
        rw [List.append_assoc]
        exact hpre e hee
      | none =>
        cases hg : h.getField a k1 with
        | none => rfl
        | some w1 =>
          obtain ⟨e, hee, init, hnorm, hine, hinitpath⟩ := h4 a k1 w1 hane hg hgf
          have hid : init = done := hinj init done a hinitpath hdone
          subst hid
          exfalso
          have hp := hpre e hee
          rw [hnorm, isPrefixOf_append_cons init k1 rest'] at hp
          cases hp
    | hnum n => rfl
    | hstr s => rfl
    | hbool b => rfl
    | hnull => rfl
    | hundef => rfl
    | harr xs => rfl

theorem c2_agree {h hf : Heap} {v : HVal} {entries : List PEntry}
    (ht : TreeShaped h v) (hinv : C2Inv h v entries hf) :
    ∀ q, q ≠ [] → (∀ e ∈ entries, (normE e).isPrefixOf q = false) →
    getPathH hf q (.hobj h.next) = getPathH h q v := by
  obtain ⟨hclosed, htv, hinj⟩ := ht
  obtain ⟨h1, h2, h3, h4⟩ := hinv
  intro q hq hpre
  cases q with
  | nil => exact absurd rfl hq
  | cons k0 rest =>
    show (match hf.getField h.next k0 with
          | some w2 => getPathH hf rest w2
          | none => none) = getPathH h (k0 :: rest) v
    cases hgf : hf.getField h.next k0 with
    | some w0 =>
      obtain ⟨r, hvr, hgr⟩ := spread_lookup_some h v k0 w0 (h1 k0 w0 hgf)
      subst hvr
      have hr : r < h.next := htv r rfl
      have htb0 : TargetBelow w0 h.next := getField_target_below hclosed r hr k0 w0 hgr
      have hdone : getPathH h [k0] (.hobj r) = some w0 := by
        show (match h.getField r k0 with
              | some w2 => getPathH h [] w2
              | none => none) = some w0
        rw [hgr]
        rfl
      have hrhs : getPathH h (k0 :: rest) (.hobj r) = getPathH h rest w0 := by
        show (match h.getField r k0 with
              | some w2 => getPathH h rest w2
              | none => none) = getPathH h rest w0
        rw [hgr]
      rw [hrhs]
      exact agreeWalk hclosed hinj h3 h4 rest [k0] w0 (by simp) hdone htb0 hpre
    | none =>
      cases v with
      | hobj r =>
        cases hgr : h.getField r k0 with
        | none =>
          have hrhs : getPathH h (k0 :: rest) (.hobj r) = none := by
            show (match h.getField r k0 with
                  | some w2 => getPathH h rest w2
                  | none => none) = none
            rw [hgr]
          rw [hrhs]
        | some w0 =>
          exfalso
          obtain ⟨e, hee, hne⟩ := h2 k0 w0 (spread_lookup_of_getField h r k0 w0 hgr) hgf
          have hp := hpre e hee
          have htru : ([k0]).isPrefixOf (k0 :: rest) = true := isPrefixOf_append_cons [] k0 rest
          rw [hne, htru] at hp
          cases hp
      | hnum n => rfl
      | hstr s => rfl
      | hbool b => rfl
      | hnull => rfl
      | hundef => rfl
      | harr xs => rfl

theorem c2h_char : ∀ (q : List String) (b : Addr),
    getPathH c2h q (.hobj 1) = some (.hobj b) → (q = [] ∧ b = 1) ∨ (q = ["a"] ∧ b = 0) := by
  intro q b hq
  cases q with
  | nil =>
    left
    refine ⟨rfl, ?_⟩
    have h5 := HVal.hobj.inj (Option.some_inj.mp hq)
    exact h5.symm
  | cons k rest =>
    have hq2 : (match c2h.getField 1 k with
        | some w => getPathH c2h rest w
        | none => none) = some (.hobj b) := hq
    by_cases hka : k = "a"
    · subst hka
      rw [show c2h.getField 1 "a" = some (.hobj 0) from rfl] at hq2
      dsimp only at hq2
      cases rest with
      | nil =>
        right
        refine ⟨rfl, ?_⟩
        have h5 := HVal.hobj.inj (Option.some_inj.mp hq2)
        exact h5.symm
      | cons k2 r2 =>
        exfalso
        have hq3 : (match c2h.getField 0 k2 with
            | some w => getPathH c2h r2 w
            | none => none) = some (.hobj b) := hq2
        by_cases hk2 : k2 = "secret"
        · subst hk2
          rw [show c2h.getField 0 "secret" = some (.hnum 5) from rfl] at hq3
          dsimp only at hq3
          cases r2 with
          | nil => cases Option.some_inj.mp hq3
          | cons k3 r3 => cases hq3
        · by_cases hk3 : k2 = "keep"
          · subst hk3
            rw [show c2h.getField 0 "keep" = some (.hnum 6) from rfl] at hq3
            dsimp only at hq3
            cases r2 with
            | nil => cases Option.some_inj.mp hq3
            | cons k3 r3 => cases hq3
          · have hnone : c2h.getField 0 k2 = none := by
              show assocLookup [("secret", HVal.hnum 5), ("keep", HVal.hnum 6)] k2 = none
              rw [assocLookup_cons_ne _ _ _ k2 hk2, assocLookup_cons_ne _ _ _ k2 hk3]
              rfl
            rw [hnone] at hq3
            cases hq3
    · by_cases hkp : k = "pub"
      · subst hkp
        rw [show c2h.getField 1 "pub" = some (.hnum 7) from rfl] at hq2
        dsimp only at hq2
        cases rest with
        | nil => cases Option.some_inj.mp hq2
        | cons k2 r2 => cases hq2
      · have hnone : c2h.getField 1 k = none := by
          show assocLookup [("a", HVal.hobj 0), ("pub", HVal.hnum 7)] k = none
          rw [assocLookup_cons_ne _ _ _ k hka, assocLookup_cons_ne _ _ _ k hkp]
          rfl
        rw [hnone] at hq2
        cases hq2

theorem c2h_tree : TreeShaped c2h (.hobj 1) := by
  refine ⟨?_, ?_, ?_⟩
  · intro a o ho ha kv hkv b hb
    rcases a with _ | a
    · have ho2 : o = [("secret", HVal.hnum 5), ("keep", HVal.hnum 6)] :=
        (Option.some_inj.mp ho).symm
      subst ho2
      rcases List.mem_cons.mp hkv with hkv | hkv
      · subst hkv; cases hb
      · rcases List.mem_cons.mp hkv with hkv | hkv
        · subst hkv; cases hb
        · cases hkv
    · rcases a with _ | a
      · have ho2 : o = [("a", HVal.hobj 0), ("pub", HVal.hnum 7)] :=
          (Option.some_inj.mp ho).symm
        subst ho2
        rcases List.mem_cons.mp hkv with hkv | hkv
        · subst hkv
          have h6 := HVal.hobj.inj hb
          subst h6
          decide
        · rcases List.mem_cons.mp hkv with hkv | hkv
          · subst hkv; cases hb
          · cases hkv
      · exact absurd ha (Nat.not_lt.mpr (Nat.le_add_left 2 a))
  · intro b hb
    have h6 := HVal.hobj.inj hb
    subst h6
    decide
  · intro q1 q2 b hq1 hq2
    rcases c2h_char q1 b hq1 with ⟨he1, hb1⟩ | ⟨he1, hb1⟩ <;>
      rcases c2h_char q2 b hq2 with ⟨he2, hb2⟩ | ⟨he2, hb2⟩
    · rw [he1, he2]
    · exfalso; rw [hb1] at hb2; exact absurd hb2 (by decide)
    · exfalso; rw [hb1] at hb2; exact absurd hb2 (by decide)
    · rw [he1, he2]

/-- **C2**: for every tree-shaped state object and every list of private
entries, `cleanState` returns (without throwing) a copy rooted at a fresh
object from which every listed top-level string key is absent, every listed
non-empty path is unreachable, and every non-empty location not at or below a
listed entry reads back the identical value (for object-valued locations, the
identical reference) as in the input state.  Tree-shapedness (no aliasing
among the state's nested objects — the shape of every state built from
literals or JSON parsing) is required because the nested deletions go through
shared references; the error count shows path entries with missing
intermediates are survived, later entries still being processed (the deletion
conjuncts quantify over all entries regardless of earlier errors). -/
theorem c2_cleanState (h : Heap) (v : HVal) (entries : List PEntry)
    (ht : TreeShaped h v) :
    ∃ hf c errs, cleanState h v entries = (hf, .hobj c, errs)
      ∧ (∀ k, PEntry.key k ∈ entries → hf.getField c k = none)
      ∧ (∀ p, PEntry.path p ∈ entries → p ≠ [] → getPathH hf p (.hobj c) = none)
      ∧ (∀ q, q ≠ [] → (∀ e ∈ entries, (normE e).isPrefixOf q = false) →
          getPathH hf q (.hobj c) = getPathH h q v) := by
  refine ⟨(entries.foldl (cleanStep h.next) ((h.alloc (spreadFields h v)).1, 0)).1, h.next,
    (entries.foldl (cleanStep h.next) ((h.alloc (spreadFields h v)).1, 0)).2, rfl, ?_, ?_, ?_⟩
  · intro k hk
    exact cleanFold_kill_key h.next entries ((h.alloc (spreadFields h v)).1, 0) k hk
  · intro p hp hpne
    exact cleanFold_kill_path h.next entries ((h.alloc (spreadFields h v)).1, 0) p hp hpne
  · intro q hq hpre
    have hinv := c2inv_fold ht.1 ht.2.1 entries ((h.alloc (spreadFields h v)).1, 0)
      (fun _ he => he) (c2inv_base h v entries)
    exact c2_agree ht hinv q hq hpre

/-- C2 witness: the concrete state `{a: {secret: 5, keep: 6}, pub: 7}` with
entries `"pub"`, `["a","secret"]` and the missing-intermediate path
`["missing","x"]` is tree-shaped, and the theorem's full conclusion holds for
it. -/
theorem c2_witness :
    TreeShaped c2h (.hobj 1) ∧
    (∃ hf c errs, cleanState c2h (.hobj 1) c2entries = (hf, .hobj c, errs)
      ∧ (∀ k, PEntry.key k ∈ c2entries → hf.getField c k = none)
      ∧ (∀ p, PEntry.path p ∈ c2entries → p ≠ [] → getPathH hf p (.hobj c) = none)
      ∧ (∀ q, q ≠ [] → (∀ e ∈ c2entries, (normE e).isPrefixOf q = false) →
          getPathH hf q (.hobj c) = getPathH c2h q (.hobj 1))) :=
  ⟨c2h_tree, c2_cleanState c2h (.hobj 1) c2entries c2h_tree⟩

end CF
